import Mathlib

/-!
Marshaling layer of the pkcs11 binding (`types.go`)

A shallow embedding of the arena, the attribute and mechanism list builders and
the structured parameter encoder, followed by the properties the specification
states about them.

Conventions of the embedding

* The C heap is a list of blocks; block `k` lives at address `k + 1`, address
  `0` is `NULL`.  Every block remembers how often `free` was called on it.
* A Go byte slice is `Option (List Byte)`: `none` is the `nil` slice.
* A Go run-time panic is the `error` case of `Except Panic`.
* `w` is the width in bits of the native word `CK_ULONG`; a conversion to
  `CK_ULONG` reduces modulo `2 ^ w`.
-/

namespace Pkcs11

/-! ## Data model -/

/-- One octet. -/
abbrev Byte := Fin 256

/-- A Go `[]byte`: `none` is the nil slice, `some []` an allocated empty one. -/
abbrev ByteSlice := Option (List Byte)

/-- Go `len` on a byte slice. -/
def ByteSlice.len (b : ByteSlice) : Nat :=
  match b with
  | none => 0
  | some l => l.length

/-- The elements of a byte slice. -/
def ByteSlice.bytes (b : ByteSlice) : List Byte :=
  match b with
  | none => []
  | some l => l

/-- The Go run-time failures the marshaling code can raise. -/
inductive Panic where
  | indexOutOfRange
  | nilDereference
  | typeAssertion
  | negativeLength
  | unhandledAttributeType
  deriving DecidableEq, Repr

deriving instance DecidableEq for Except

/-- Conversion of a Go integer to the native word `CK_ULONG` of `w` bits. -/
def CK_ULONG (w : Nat) (x : Nat) : Nat := x % 2 ^ w

/-- One block of C heap memory. -/
structure Block where
  data : List Byte
  frees : Nat
  deriving DecidableEq, Repr

/-- The C heap: block `k` lives at address `k + 1`. -/
structure CHeap where
  blocks : List Block
  deriving DecidableEq, Repr

/-- The block at an address, if the address is one `calloc` returned. -/
def CHeap.block? (h : CHeap) (p : Nat) : Option Block :=
  match p with
  | 0 => none
  | k + 1 => h.blocks[k]?

/-- Contents of the block at an address. -/
def CHeap.data? (h : CHeap) (p : Nat) : Option (List Byte) :=
  (h.block? p).map Block.data

/-- Number of `free` calls the block at an address has received. -/
def CHeap.frees (h : CHeap) (p : Nat) : Nat :=
  match h.block? p with
  | none => 0
  | some b => b.frees

/-- The assignment `xs[k] = f(xs[k])`.  The builders only index below the
length of the array, so the case of a shorter list is never reached. -/
def modifyAt {α : Type} (f : α → α) : List α → Nat → List α
  | [], _ => []
  | x :: xs, 0 => f x :: xs
  | x :: xs, k + 1 => x :: modifyAt f xs k

/-- C `calloc(n, 1)`: a new zero-filled block of `n` bytes at a new address. -/
def calloc (h : CHeap) (n : Nat) : Nat × CHeap :=
  (h.blocks.length + 1, { blocks := h.blocks ++ [{ data := List.replicate n 0, frees := 0 }] })

/-- C `memmove(dst, src, n)` with `src` the first `n` bytes of a Go buffer. -/
def memmove (h : CHeap) (dst : Nat) (src : List Byte) (n : Nat) : CHeap :=
  match dst with
  | 0 => h
  | k + 1 =>
    { blocks := modifyAt (fun b => { b with data := src.take n ++ b.data.drop n }) h.blocks k }

/-- C `free(p)`; `free(NULL)` does nothing. -/
def free (h : CHeap) (p : Nat) : CHeap :=
  match p with
  | 0 => h
  | k + 1 => { blocks := modifyAt (fun b => { b with frees := b.frees + 1 }) h.blocks k }

/-- A native pointer value handed to the foreign interface. -/
inductive CK_VOID_PTR where
  | null
  | cblock (addr : Nat)
  | oaep (hashAlg mgf source : Nat) (pSourceData : CK_VOID_PTR) (ulSourceDataLen : Nat)
  deriving DecidableEq, Repr

/-- The Go type `arena`: the addresses of the blocks to release. -/
abbrev arena := List Nat

/-- Method `(a *arena) Allocate(obj []byte)`. -/
def arena.Allocate (w : Nat) (a : arena) (h : CHeap) (obj : ByteSlice) :
    Except Panic ((CK_VOID_PTR × Nat) × arena × CHeap) :=
  let (cobj, h1) := calloc h obj.len
  let a1 := a ++ [cobj]
  match obj.bytes with
  | [] => Except.error Panic.indexOutOfRange
  | b0 :: rest =>
    let h2 := memmove h1 cobj (b0 :: rest) obj.len
    Except.ok ((CK_VOID_PTR.cblock cobj, CK_ULONG w obj.len), a1, h2)

/-- Method `(a arena) Free()`. -/
def arena.Free (a : arena) (h : CHeap) : CHeap :=
  a.foldl free h

/-! ## Attribute list builder -/

/-- The Go struct `Attribute`. -/
structure Attribute where
  Typ : Nat
  Value : ByteSlice
  deriving DecidableEq, Repr

/-- The native record `CK_ATTRIBUTE`. -/
structure CK_ATTRIBUTE where
  type : Nat
  pValue : CK_VOID_PTR
  ulValueLen : Nat
  deriving DecidableEq, Repr

/-- The zero value of a `CK_ATTRIBUTE`, as `make` produces it. -/
def CK_ATTRIBUTE.zero : CK_ATTRIBUTE := { type := 0, pValue := CK_VOID_PTR.null, ulValueLen := 0 }

/-- The `for` loop of `cAttributeList`: the attributes from index `i` on, the
index, and the state (arena, record array `pa`, C heap).  An element of the
input is a pointer, `none` being the nil pointer. -/
def cAttributeList.loop (w : Nat) :
    List (Option Attribute) → Nat → arena × List CK_ATTRIBUTE × CHeap →
      Except Panic (arena × List CK_ATTRIBUTE × CHeap)
  | [], _, st => Except.ok st
  | none :: _, _, _ => Except.error Panic.nilDereference
  | some ai :: rest, i, (ar, pa, h) =>
    let pa1 := modifyAt (fun r => { r with type := CK_ULONG w ai.Typ }) pa i
    if ai.Value = none ∨ ai.Value.len = 0 then
      cAttributeList.loop w rest (i + 1) (ar, pa1, h)
    else
      match arena.Allocate w ar h ai.Value with
      | Except.error e => Except.error e
      | Except.ok ((p, n), ar1, h1) =>
        let pa2 := modifyAt (fun r => { r with pValue := p, ulValueLen := n }) pa1 i
        cAttributeList.loop w rest (i + 1) (ar1, pa2, h1)

/-- Function `cAttributeList`: the arena, the pointer to the first record
(`none` is the nil pointer, `some pa` points at the array `pa`) and the count,
together with the C heap afterwards. -/
def cAttributeList (w : Nat) (a : List (Option Attribute)) (h : CHeap) :
    Except Panic ((arena × Option (List CK_ATTRIBUTE) × Nat) × CHeap) :=
  if a.length = 0 then
    Except.ok (([], none, 0), h)
  else
    match cAttributeList.loop w a 0 ([], List.replicate a.length CK_ATTRIBUTE.zero, h) with
    | Except.error e => Except.error e
    | Except.ok (ar, pa, h1) => Except.ok ((ar, some pa, CK_ULONG w a.length), h1)

/-! ## Structured parameters -/

/-- The Go interface `mechanismParam`.  The arena is passed by value, so the
method gets a copy of the slice header and returns no arena. -/
structure mechanismParam where
  toNative : arena → CHeap → Except Panic ((CK_VOID_PTR × Nat) × CHeap)

/-- The Go struct `OaepParams`. -/
structure OaepParams where
  HashAlgorithm : Nat
  MaskGenerationFunction : Nat
  SourceType : Nat
  Source : ByteSlice
  deriving DecidableEq, Repr

/-- The native record `CK_RSA_PKCS_OAEP_PARAMS`. -/
structure CK_RSA_PKCS_OAEP_PARAMS where
  hashAlg : Nat
  mgf : Nat
  source : Nat
  pSourceData : CK_VOID_PTR
  ulSourceDataLen : Nat
  deriving DecidableEq, Repr

/-- Conversion `C.CK_VOID_PTR(params)` of a pointer to a parameter record. -/
def CK_VOID_PTR.ofOaep : Option CK_RSA_PKCS_OAEP_PARAMS → CK_VOID_PTR
  | none => CK_VOID_PTR.null
  | some s => CK_VOID_PTR.oaep s.hashAlg s.mgf s.source s.pSourceData s.ulSourceDataLen

/-- An assignment to fields through a pointer; the nil pointer panics. -/
def assignThrough {S : Type} (ptr : Option S) (f : S → S) : Except Panic (Option S) :=
  match ptr with
  | none => Except.error Panic.nilDereference
  | some s => Except.ok (some (f s))

/-- Method `(p *OaepParams) toNative(arena arena)`.  The local `params` is
declared as a pointer and never given storage; `unsafe.Sizeof(params)` is the
size of that pointer. -/
def OaepParams.toNative (w : Nat) (p : OaepParams) (ar : arena) (h : CHeap) :
    Except Panic ((CK_VOID_PTR × Nat) × CHeap) := do
  let params : Option CK_RSA_PKCS_OAEP_PARAMS := none
  let params ← assignThrough params (fun s => { s with hashAlg := CK_ULONG w p.HashAlgorithm })
  let params ← assignThrough params (fun s => { s with mgf := CK_ULONG w p.MaskGenerationFunction })
  let params ← assignThrough params (fun s => { s with source := CK_ULONG w p.SourceType })
  if p.Source ≠ none then
    let ((ptr, n), _, h1) ← arena.Allocate w ar h p.Source
    let params ← assignThrough params (fun s => { s with pSourceData := ptr, ulSourceDataLen := n })
    pure ((CK_VOID_PTR.ofOaep params, CK_ULONG w (w / 8)), h1)
  else
    pure ((CK_VOID_PTR.ofOaep params, CK_ULONG w (w / 8)), h)

/-- The type `*OaepParams` as an implementation of `mechanismParam`. -/
def OaepParams.asParam (w : Nat) (p : OaepParams) : mechanismParam :=
  { toNative := OaepParams.toNative w p }

/-! ## Mechanism list builder -/

/-- The dynamic value held by the `interface{}` field `Mechanism.Parameter`. -/
inductive Parameter where
  | nil
  | native (q : mechanismParam)
  | bytes (b : ByteSlice)
  | str (s : String)
  | int (v : Int)
  | oaepValue (p : OaepParams)
  | other (typeName : String)

set_option linter.dupNamespace false in
/-- The Go struct `Mechanism`. -/
structure Mechanism where
  Mechanism : Nat
  Parameter : Parameter

/-- The native record `CK_MECHANISM`. -/
structure CK_MECHANISM where
  mechanism : Nat
  pParameter : CK_VOID_PTR
  ulParameterLen : Nat
  deriving DecidableEq, Repr

/-- The zero value of a `CK_MECHANISM`. -/
def CK_MECHANISM.zero : CK_MECHANISM :=
  { mechanism := 0, pParameter := CK_VOID_PTR.null, ulParameterLen := 0 }

/-- The `for` loop of `cMechanismList`, in the shape of `cAttributeList.loop`. -/
def cMechanismList.loop (w : Nat) :
    List (Option Mechanism) → Nat → arena × List CK_MECHANISM × CHeap →
      Except Panic (arena × List CK_MECHANISM × CHeap)
  | [], _, st => Except.ok st
  | none :: _, _, _ => Except.error Panic.nilDereference
  | some mi :: rest, i, (ar, pm, h) =>
    let pm1 := modifyAt (fun r => { r with mechanism := CK_ULONG w mi.Mechanism }) pm i
    match mi.Parameter with
    | Parameter.nil => cMechanismList.loop w rest (i + 1) (ar, pm1, h)
    | Parameter.native q =>
      match q.toNative ar h with
      | Except.error e => Except.error e
      | Except.ok ((p, n), h1) =>
        let pm2 := modifyAt (fun r => { r with pParameter := p, ulParameterLen := n }) pm1 i
        cMechanismList.loop w rest (i + 1) (ar, pm2, h1)
    | Parameter.bytes bytesParam =>
      if bytesParam.len = 0 then
        cMechanismList.loop w rest (i + 1) (ar, pm1, h)
      else
        match arena.Allocate w ar h bytesParam with
        | Except.error e => Except.error e
        | Except.ok ((p, n), ar1, h1) =>
          let pm2 := modifyAt (fun r => { r with pParameter := p, ulParameterLen := n }) pm1 i
          cMechanismList.loop w rest (i + 1) (ar1, pm2, h1)
    | _ => Except.error Panic.typeAssertion

/-- Function `cMechanismList`. -/
def cMechanismList (w : Nat) (m : List (Option Mechanism)) (h : CHeap) :
    Except Panic ((arena × Option (List CK_MECHANISM) × Nat) × CHeap) :=
  if m.length = 0 then
    Except.ok (([], none, 0), h)
  else
    match cMechanismList.loop w m 0 ([], List.replicate m.length CK_MECHANISM.zero, h) with
    | Except.error e => Except.error e
    | Except.ok (ar, pm, h1) => Except.ok ((ar, some pm, CK_ULONG w m.length), h1)

/-! ## Nested attribute lists -/

/-- Conversion of a native word to a C `int` (32 bits, two's complement). -/
def C_int (x : Nat) : Int :=
  if x % 2 ^ 32 < 2 ^ 31 then (x % 2 ^ 32 : Nat) else (x % 2 ^ 32 : Nat) - 2 ^ 32

/-- The cgo helper `C.GoBytes(p, n)`: the `n` bytes found at `p`, given as the
function `mem` from offsets to bytes; a negative `n` panics. -/
def GoBytes (mem : Nat → Byte) (n : Int) : Except Panic (List Byte) :=
  if n < 0 then Except.error Panic.negativeLength
  else Except.ok ((List.range n.toNat).map mem)

/-- Function `attributesToBytes`.  `GoBytes` is handed the address of the local
variable `ptr`, not the pointer it holds, and the record count as the number of
bytes; `varMem ptr` is the memory found at the address of that variable. -/
def attributesToBytes (w : Nat) (varMem : Option (List CK_ATTRIBUTE) → Nat → Byte)
    (x : List (Option Attribute)) (h : CHeap) : Except Panic (List Byte × CHeap) :=
  match cAttributeList w x h with
  | Except.error e => Except.error e
  | Except.ok ((ar, ptr, size), h1) =>
    match GoBytes (varMem ptr) (C_int size) with
    | Except.error e => Except.error e
    | Except.ok bytes => Except.ok (bytes, arena.Free ar h1)



/-! ## Scalar encoders -/

/-- Byte order of the host, a property of the platform. -/
inductive ByteOrder where
  | little
  | big
  deriving DecidableEq, Repr

/-- The byte holding the low eight bits of a number. -/
def byteOf (n : Nat) : Byte := ⟨n % 256, Nat.mod_lt n (by decide)⟩

/-- The byte at offset `i` of the memory holding the native word `ul` of `w`
bits. -/
def wordMem (w : Nat) (order : ByteOrder) (ul : Nat) (i : Nat) : Byte :=
  match order with
  | ByteOrder.little => byteOf (ul / 256 ^ i)
  | ByteOrder.big => byteOf (ul / 256 ^ (w / 8 - 1 - i))

/-- Modelled from the spec: the constant `CK_TRUE` of `pkcs11.h`, which is not
among the sources; the spec encodes true as 1. -/
def CK_TRUE : Nat := 1

/-- Modelled from the spec: the constant `CK_FALSE` of `pkcs11.h`, which is not
among the sources; the spec encodes false as 0. -/
def CK_FALSE : Nat := 0

/-- Function `cBBool`. -/
def cBBool (x : Bool) : Nat :=
  if x then CK_TRUE else CK_FALSE

/-- Function `uintToBytes`: `x` is the `uint64` argument; the result is the
`unsafe.Sizeof(ul)` bytes found at the address of `ul`. -/
def uintToBytes (w : Nat) (order : ByteOrder) (x : Nat) : List Byte :=
  let ul := CK_ULONG w x
  (List.range (w / 8)).map (wordMem w order ul)

/-- The inner `for` loop of `uintArrayToBytes`: `n` iterations are left, `j`
is the index into `v`.  Every index is below the length of its slice. -/
def uintArrayToBytes.inner (ulSize i : Nat) (v : List Byte) :
    Nat → Nat → List Byte → List Byte
  | 0, _, b => b
  | n + 1, j, b =>
    uintArrayToBytes.inner ulSize i v n (j + 1)
      (modifyAt (fun _ => v.getD j 0) b (i * ulSize + j))

/-- The outer `for` loop of `uintArrayToBytes`: the elements from index `i`
on. -/
def uintArrayToBytes.outer (w : Nat) (order : ByteOrder) :
    List Nat → Nat → List Byte → List Byte
  | [], _, b => b
  | xi :: rest, i, b =>
    let v := uintToBytes w order xi
    uintArrayToBytes.outer w order rest (i + 1)
      (uintArrayToBytes.inner (w / 8) i v (w / 8) 0 b)

/-- Function `uintArrayToBytes`. -/
def uintArrayToBytes (w : Nat) (order : ByteOrder) (x : List Nat) : List Byte :=
  let ulSize := w / 8
  uintArrayToBytes.outer w order x 0 (List.replicate (x.length * ulSize) 0)

/-- The digits of `n` in base `b`, most significant first, pushed in front of
`acc`; the first argument bounds the number of digits. -/
def digitsAux (b : Nat) : Nat → Nat → List Nat → List Nat
  | 0, _, acc => acc
  | fuel + 1, n, acc =>
    if n < b then n :: acc else digitsAux b fuel (n / b) (n % b :: acc)

/-- The digits of `n` in base `b`, most significant first; zero has the one
digit 0. -/
def digitsOf (b n : Nat) : List Nat := digitsAux b (n + 1) n []

/-- The number a list of digits in base `b` denotes. -/
def valueOf (b : Nat) (ds : List Nat) : Nat := ds.foldl (fun v d => v * b + d) 0

/-- A string padded on the left with `c` up to `width`. -/
def padLeft {α : Type} (c : α) (width : Nat) (s : List α) : List α :=
  List.replicate (width - s.length) c ++ s

/-- The ASCII character of a decimal digit. -/
def digitByte (d : Nat) : Byte := byteOf (48 + d)

/-- The bytes of `fmt.Sprintf("%4d", v)`: sign and decimal digits, padded with
spaces to four characters. -/
def Sprintf_4d (v : Int) : List Byte :=
  padLeft 32 4
    (if v < 0 then 45 :: (digitsOf 10 v.natAbs).map digitByte
     else (digitsOf 10 v.natAbs).map digitByte)

/-- The bytes of `fmt.Sprintf("%02d", v)`: decimal digits padded with zeros
to two characters, the sign counted. -/
def Sprintf_02d (v : Int) : List Byte :=
  if v < 0 then 45 :: padLeft 48 1 ((digitsOf 10 v.natAbs).map digitByte)
  else padLeft 48 2 ((digitsOf 10 v.natAbs).map digitByte)

/-- The result of `t.Date()` on a Go `time.Time`. -/
structure Time where
  year : Int
  month : Nat
  day : Nat
  deriving DecidableEq, Repr

/-- The index expression `s[i]` on a Go string. -/
def strIndex (s : List Byte) (i : Nat) : Except Panic Byte :=
  match s[i]? with
  | some c => Except.ok c
  | none => Except.error Panic.indexOutOfRange

/-- Function `cDate`. -/
def cDate (t : Time) : Except Panic (List Byte) := do
  let y := Sprintf_4d t.year
  let m := Sprintf_02d t.month
  let d1 := Sprintf_02d t.day
  let b0 ← strIndex y 0
  let b1 ← strIndex y 1
  let b2 ← strIndex y 2
  let b3 ← strIndex y 3
  let b4 ← strIndex m 0
  let b5 ← strIndex m 1
  let b6 ← strIndex d1 0
  let b7 ← strIndex d1 1
  pure [b0, b1, b2, b3, b4, b5, b6, b7]

/-! ## Status errors -/

/-- The Go type `Error`, an unsigned status code. -/
abbrev Error := Nat

/-- Modelled from the spec: the constant `CKR_OK` of `pkcs11.h`, which is not
among the sources; the spec says that zero denotes success. -/
def CKR_OK : Nat := 0

/-- Function `toError`: `none` is the nil error. -/
def toError (e : Nat) : Option Error :=
  if e = CKR_OK then none else some e

/-- The character of a hexadecimal digit, upper case. -/
def hexChar (d : Nat) : Char :=
  ['0', '1', '2', '3', '4', '5', '6', '7', '8', '9', 'A', 'B', 'C', 'D', 'E', 'F'].getD d '0'

/-- The value of a hexadecimal character, upper case. -/
def hexValue (c : Char) : Nat :=
  (['0', '1', '2', '3', '4', '5', '6', '7', '8', '9', 'A', 'B', 'C', 'D', 'E', 'F'].indexOf c)

/-- The string of the verb `%X` of `fmt.Sprintf` on an unsigned number. -/
def Sprintf_X (n : Nat) : String :=
  String.mk ((digitsOf 16 n).map hexChar)

/-- The number an upper-case hexadecimal string denotes. -/
def parseHex (s : String) : Nat :=
  valueOf 16 (s.toList.map hexValue)

set_option linter.dupNamespace false in
/-- Method `(e Error) Error()`.  The table `strerror` is a Go map that is not
among the sources and is a parameter here; a key it does not hold (`none`)
reads as the empty string. -/
def Error.Error (strerror : Nat → Option String) (e : Error) : String :=
  "pkcs11: 0x" ++ Sprintf_X e ++ ": " ++ (strerror e).getD ""

/-! ## Attribute construction -/

/-- The dynamic value passed to `NewAttribute` as `interface{}`.  A Go string
is given by its bytes. -/
inductive GoValue where
  | nil
  | bool (v : Bool)
  | int (v : Int)
  | uint (v : Nat)
  | uintSlice (v : List Nat)
  | attributes (v : List (Option Attribute))
  | string (v : List Byte)
  | bytes (v : ByteSlice)
  | time (v : Time)
  | other (typeName : String)

/-- The conversion `uint64(v)` of a Go `int`. -/
def uint64OfInt (v : Int) : Nat := (v % 2 ^ 64).toNat

/-- Function `NewAttribute`; the pointer it returns is never nil and is given
by the attribute it points at. -/
def NewAttribute (w : Nat) (order : ByteOrder)
    (varMem : Option (List CK_ATTRIBUTE) → Nat → Byte) (typ : Nat) (x : GoValue)
    (h : CHeap) : Except Panic (Attribute × CHeap) :=
  let a : Attribute := { Typ := typ, Value := none }
  match x with
  | GoValue.nil => Except.ok (a, h)
  | GoValue.bool v =>
    if v then Except.ok ({ a with Value := some [1] }, h)
    else Except.ok ({ a with Value := some [0] }, h)
  | GoValue.int v => Except.ok ({ a with Value := some (uintToBytes w order (uint64OfInt v)) }, h)
  | GoValue.uint v => Except.ok ({ a with Value := some (uintToBytes w order v) }, h)
  | GoValue.uintSlice v => Except.ok ({ a with Value := some (uintArrayToBytes w order v) }, h)
  | GoValue.attributes v =>
    match attributesToBytes w varMem v h with
    | Except.error e => Except.error e
    | Except.ok (bytes, h1) => Except.ok ({ a with Value := some bytes }, h1)
  | GoValue.string v => Except.ok ({ a with Value := some v }, h)
  | GoValue.bytes v => Except.ok ({ a with Value := v }, h)
  | GoValue.time v =>
    match cDate v with
    | Except.error e => Except.error e
    | Except.ok d => Except.ok ({ a with Value := some d }, h)
  | GoValue.other _ => Except.error Panic.unhandledAttributeType

/-- The number a sequence of bytes denotes, least significant byte first. -/
def leValue : List Byte → Nat
  | [] => 0
  | b :: bs => b.val + 256 * leValue bs

/-- Decoding of bytes as a native unsigned word in the given byte order. -/
def wordOfBytes (order : ByteOrder) (bs : List Byte) : Nat :=
  match order with
  | ByteOrder.little => leValue bs
  | ByteOrder.big => leValue bs.reverse

/-- Whether a byte is one of the ASCII digits `0` to `9`. -/
def isAsciiDigit (b : Byte) : Bool := 48 ≤ b.val && b.val ≤ 57

/-- The number a sequence of ASCII digits denotes in decimal. -/
def parseDecimal (bs : List Byte) : Nat := valueOf 10 (bs.map (fun b => b.val - 48))

/-- The bytes of a string of ASCII characters. -/
def asciiBytes (s : String) : List Byte := s.toList.map (fun c => byteOf c.toNat)

/-- A code-to-message table with the one entry 1. -/
def sampleStrerror : Nat → Option String :=
  fun c => if c = 1 then some "CKR_CANCEL" else none

/-- Whether a parameter is a value that is neither absent, nor a native-encode
value, nor a byte buffer. -/
def Parameter.isUnsupported : Parameter → Bool
  | Parameter.str _ => true
  | Parameter.int _ => true
  | Parameter.oaepValue _ => true
  | Parameter.other _ => true
  | _ => false

/-- Whether a parameter, when the builder reaches it, cannot panic on its
own: every parameter but a structured one, and a structured parameter whose
`toNative` returns on every arena and heap. -/
def Parameter.returns : Parameter → Prop
  | Parameter.native q => ∀ (ar : arena) (h : CHeap), ∃ r, q.toNative ar h = Except.ok r
  | _ => True

/-! ## Characterisation of the builders

Pure descriptions of what the loops compute, used by the proofs below. -/

/-- Whether a byte slice has at least one element. -/
def ByteSlice.nonEmpty (b : ByteSlice) : Bool := b.len != 0

/-- The array a record pointer points at; nothing for the nil pointer. -/
def arrayAt {α : Type} : Option (List α) → List α
  | none => []
  | some l => l

/-- The address a pointer to a C heap block holds. -/
def CK_VOID_PTR.addr? : CK_VOID_PTR → Option Nat
  | CK_VOID_PTR.cblock p => some p
  | _ => none

/-- The records the attribute loop writes when the heap holds `k` blocks. -/
def attrRecords (w : Nat) : Nat → List Attribute → List CK_ATTRIBUTE
  | _, [] => []
  | k, a :: rest =>
    if a.Value.len = 0 then
      { type := CK_ULONG w a.Typ, pValue := CK_VOID_PTR.null, ulValueLen := 0 } ::
        attrRecords w k rest
    else
      { type := CK_ULONG w a.Typ, pValue := CK_VOID_PTR.cblock (k + 1),
        ulValueLen := CK_ULONG w a.Value.len } :: attrRecords w (k + 1) rest

/-- The addresses the attribute loop appends to the arena. -/
def attrAddrs : Nat → List Attribute → List Nat
  | _, [] => []
  | k, a :: rest =>
    if a.Value.len = 0 then attrAddrs k rest else (k + 1) :: attrAddrs (k + 1) rest

/-- The blocks the attribute loop adds to the heap. -/
def attrBlocks : List Attribute → List Block
  | [] => []
  | a :: rest =>
    if a.Value.len = 0 then attrBlocks rest
    else { data := a.Value.bytes, frees := 0 } :: attrBlocks rest

/-- Every length and type of an attribute list is a value of the native word. -/
def FitsWord (w : Nat) (L : List Attribute) : Prop :=
  L.length < 2 ^ w ∧ ∀ a ∈ L, a.Typ < 2 ^ w ∧ a.Value.len < 2 ^ w

/-- The buffer of a raw parameter; the nil slice for every other parameter. -/
def Parameter.rawBytes : Parameter → ByteSlice
  | Parameter.bytes b => b
  | _ => none

/-- Whether a parameter is absent or a raw byte buffer. -/
def Parameter.isRaw : Parameter → Bool
  | Parameter.nil => true
  | Parameter.bytes _ => true
  | _ => false

/-- A mechanism with a raw parameter, read as a (type, value) pair. -/
def Mechanism.toAttribute (m : Pkcs11.Mechanism) : Attribute :=
  { Typ := m.Mechanism, Value := m.Parameter.rawBytes }

/-- A mechanism record with the fields of an attribute record. -/
def CK_ATTRIBUTE.toMechanism (r : CK_ATTRIBUTE) : CK_MECHANISM :=
  { mechanism := r.type, pParameter := r.pValue, ulParameterLen := r.ulValueLen }

/-- Every length and identifier of a mechanism list with raw parameters is a
value of the native word. -/
def MechFitsWord (w : Nat) (M : List Mechanism) : Prop :=
  M.length < 2 ^ w ∧ ∀ m ∈ M, m.Mechanism < 2 ^ w ∧ m.Parameter.rawBytes.len < 2 ^ w

/-- A mechanism list with an absent, a raw, a nil-buffer and an empty-buffer
parameter. -/
def sampleMechanisms : List Mechanism :=
  [⟨1, Parameter.nil⟩, ⟨4, Parameter.bytes (some [9, 8, 7])⟩, ⟨4, Parameter.bytes none⟩,
    ⟨5, Parameter.bytes (some [])⟩]

/-- A structured parameter whose `toNative` copies the buffer `b` into the arena
it is handed and returns the pointer and length `Allocate` gives, as
`OaepParams.toNative` does for its `Source`. -/
def bufferParam (w : Nat) (b : ByteSlice) : mechanismParam :=
  { toNative := fun ar h =>
      match arena.Allocate w ar h b with
      | Except.error e => Except.error e
      | Except.ok (r, _, h1) => Except.ok (r, h1) }

/-- A mechanism list with a raw buffer followed by a structured parameter that
allocates three bytes. -/
def structuredMechanisms : List Mechanism :=
  [⟨1, Parameter.bytes (some [7])⟩, ⟨9, Parameter.native (bufferParam 64 (some [1, 2, 3]))⟩]

/-- The entries before the string parameter of `stringMechanisms`: a raw
buffer and a structured parameter that allocates three bytes and returns. -/
def stringPrefix : List Mechanism :=
  [⟨1, Parameter.bytes (some [7])⟩, ⟨9, Parameter.native (bufferParam 64 (some [1, 2, 3]))⟩]

/-- A mechanism list whose third entry carries a string parameter. -/
def stringMechanisms : List (Option Mechanism) :=
  stringPrefix.map some ++ some ⟨2, Parameter.str "label"⟩ :: [some ⟨3, Parameter.nil⟩]

/-- A mechanism list with an `*OaepParams` before a string parameter. -/
def oaepThenString : List (Option Mechanism) :=
  [some ⟨9, Parameter.native (OaepParams.asParam 64 ⟨0x220, 1, 1, none⟩)⟩,
    some ⟨2, Parameter.str "label"⟩]

/-- A mechanism list with a nil entry before a string parameter. -/
def nilThenString : List (Option Mechanism) :=
  [none, some ⟨2, Parameter.str "label"⟩]

/-- Method `Allocate` called once per buffer, in list order, on one arena: the
pointers returned, the arena and the heap afterwards. -/
def allocateAll (w : Nat) : List ByteSlice → arena → CHeap →
    Except Panic (List CK_VOID_PTR × arena × CHeap)
  | [], a, h => Except.ok ([], a, h)
  | b :: bs, a, h =>
    match arena.Allocate w a h b with
    | Except.error e => Except.error e
    | Except.ok ((p, _), a1, h1) =>
      match allocateAll w bs a1 h1 with
      | Except.error e => Except.error e
      | Except.ok (ps, a2, h2) => Except.ok (p :: ps, a2, h2)

/-- The total number of `free` calls the blocks of a heap have received. -/
def CHeap.totalFrees (h : CHeap) : Nat :=
  (h.blocks.map Block.frees).sum

/-- The block of a buffer after `k` calls of `free`. -/
def blockOf (k : Nat) (b : ByteSlice) : Block :=
  { data := b.bytes, frees := k }

/-- The size in bytes of the native record `CK_ATTRIBUTE`: a type word, a
pointer of the width of a word, and a length word. -/
def CK_ATTRIBUTE.sizeof (w : Nat) : Nat := 3 * (w / 8)

/-- A nested template of two attributes: an eight-byte class value and a
one-byte boolean. -/
def nestedAttributes : List Attribute :=
  [⟨0, some [3, 0, 0, 0, 0, 0, 0, 0]⟩, ⟨1, some [1]⟩]

/-- A list with a repeated type, a nil value and an empty value. -/
def sampleAttributes : List Attribute :=
  [⟨7, some [1, 2]⟩, ⟨9, none⟩, ⟨7, some [5]⟩, ⟨3, some []⟩]

/-! ## Lemmas -/

theorem sampleAttributes_fits : FitsWord 64 sampleAttributes := by
  refine ⟨by simp [sampleAttributes], ?_⟩
  intro a ha
  simp only [sampleAttributes, List.mem_cons, List.mem_singleton, List.not_mem_nil,
    or_false] at ha
  rcases ha with rfl | rfl | rfl | rfl <;> simp [ByteSlice.len]

theorem modifyAt_append_length {α : Type} (f : α → α) (xs : List α) (y : α) (ys : List α) :
    modifyAt f (xs ++ y :: ys) xs.length = xs ++ f y :: ys := by
  induction xs with
  | nil => simp [modifyAt]
  | cons x xs ih => simp [modifyAt, ih]

theorem getElem_append_length {α : Type} (xs : List α) (y : α) (ys : List α)
    (hlt : xs.length < (xs ++ y :: ys).length) : (xs ++ y :: ys)[xs.length] = y := by
  induction xs with
  | nil => simp
  | cons x xs ih => simpa using ih (by simp)

theorem CK_VOID_PTR.addr?_null : CK_VOID_PTR.null.addr? = none := rfl

theorem CK_VOID_PTR.addr?_cblock (p : Nat) : (CK_VOID_PTR.cblock p).addr? = some p := rfl

theorem ByteSlice.bytes_length (b : ByteSlice) : b.bytes.length = b.len := by
  cases b <;> simp [ByteSlice.bytes, ByteSlice.len]

theorem CK_ULONG_of_lt {w x : Nat} (hx : x < 2 ^ w) : CK_ULONG w x = x := by
  simp [CK_ULONG, Nat.mod_eq_of_lt hx]

/-- What `Allocate` does on a buffer with at least one byte. -/
theorem arena.Allocate_nonEmpty (w : Nat) (a : arena) (h : CHeap) (obj : ByteSlice)
    (hne : obj.len ≠ 0) :
    arena.Allocate w a h obj =
      Except.ok ((CK_VOID_PTR.cblock (h.blocks.length + 1), CK_ULONG w obj.len),
        a ++ [h.blocks.length + 1],
        { blocks := h.blocks ++ [{ data := obj.bytes, frees := 0 }] }) := by
  have hlen := ByteSlice.bytes_length obj
  unfold arena.Allocate
  cases hb : obj.bytes with
  | nil => rw [hb] at hlen; simp at hlen; exact absurd hlen.symm hne
  | cons b0 rest =>
    rw [hb] at hlen
    simp only [calloc, memmove, modifyAt_append_length]
    simp [← hlen]

/-- What `Allocate` does on a buffer without bytes. -/
theorem arena.Allocate_empty (w : Nat) (a : arena) (h : CHeap) (obj : ByteSlice)
    (he : obj.len = 0) :
    arena.Allocate w a h obj = Except.error Panic.indexOutOfRange := by
  have hlen := ByteSlice.bytes_length obj
  unfold arena.Allocate
  cases hb : obj.bytes with
  | nil => simp
  | cons b0 rest => rw [hb, he] at hlen; simp at hlen

/-- The attribute loop on non-nil attributes, started on zeroed records. -/
theorem cAttributeList.loop_eq (w : Nat) (L : List Attribute) :
    ∀ (pre : List CK_ATTRIBUTE) (ar : arena) (h : CHeap),
      cAttributeList.loop w (L.map some) pre.length
          (ar, pre ++ List.replicate L.length CK_ATTRIBUTE.zero, h) =
        Except.ok (ar ++ attrAddrs h.blocks.length L,
          pre ++ attrRecords w h.blocks.length L,
          { blocks := h.blocks ++ attrBlocks L }) := by
  induction L with
  | nil => intro pre ar h; simp [cAttributeList.loop, attrAddrs, attrRecords, attrBlocks]
  | cons a rest ih =>
    intro pre ar h
    simp only [List.map_cons, List.length_cons, List.replicate_succ, cAttributeList.loop,
      modifyAt_append_length]
    simp only [CK_ATTRIBUTE.zero] at ih ⊢
    by_cases hz : a.Value.len = 0
    · have hcond : a.Value = none ∨ a.Value.len = 0 := Or.inr hz
      have := ih (pre ++ [CK_ATTRIBUTE.mk (CK_ULONG w a.Typ) CK_VOID_PTR.null 0]) ar h
      simp only [List.length_append, List.length_singleton, List.append_assoc,
        List.singleton_append] at this
      simp [hcond, attrAddrs, attrRecords, attrBlocks, hz, this]
    · have hcond : ¬ a.Value = none := fun hn => hz (by simp [hn, ByteSlice.len])
      have := ih (pre ++ [CK_ATTRIBUTE.mk (CK_ULONG w a.Typ)
        (CK_VOID_PTR.cblock (h.blocks.length + 1)) (CK_ULONG w a.Value.len)])
        (ar ++ [h.blocks.length + 1]) (CHeap.mk (h.blocks ++ [Block.mk a.Value.bytes 0]))
      simp only [List.length_append, List.length_singleton, List.append_assoc,
        List.singleton_append] at this
      simp [hcond, attrAddrs, attrRecords, attrBlocks, hz, this,
        arena.Allocate_nonEmpty w ar h a.Value hz, modifyAt_append_length]

/-- The attribute list builder on a non-empty list of non-nil attributes. -/
theorem cAttributeList_eq (w : Nat) (L : List Attribute) (h : CHeap) (hL : L ≠ []) :
    cAttributeList w (L.map some) h =
      Except.ok ((attrAddrs h.blocks.length L, some (attrRecords w h.blocks.length L),
        CK_ULONG w L.length), { blocks := h.blocks ++ attrBlocks L }) := by
  have hlen : ¬ L.length = 0 := by simpa using hL
  have := cAttributeList.loop_eq w L [] [] h
  simp only [List.length_nil, List.nil_append] at this
  simp [cAttributeList, hlen, this]

/-- The attribute list builder on the empty list. -/
theorem cAttributeList_nil (w : Nat) (h : CHeap) :
    cAttributeList w [] h = Except.ok (([], none, 0), h) := by
  simp [cAttributeList]

theorem attrRecords_length (w : Nat) (L : List Attribute) :
    ∀ k, (attrRecords w k L).length = L.length := by
  induction L with
  | nil => intro k; simp [attrRecords]
  | cons a rest ih => intro k; by_cases hz : a.Value.len = 0 <;> simp [attrRecords, hz, ih]

/-- Record `i` of the attribute loop: type and length. -/
theorem attrRecords_get (w : Nat) (L : List Attribute) :
    ∀ (k i : Nat) (a : Attribute), L[i]? = some a →
      ∃ r, (attrRecords w k L)[i]? = some r ∧ r.type = CK_ULONG w a.Typ ∧
        r.ulValueLen = CK_ULONG w a.Value.len ∧
        (a.Value.len = 0 → r.pValue = CK_VOID_PTR.null) := by
  induction L with
  | nil => intro k i a hi; simp at hi
  | cons b rest ih =>
    intro k i a hi
    cases i with
    | zero =>
      simp only [List.getElem?_cons_zero, Option.some.injEq] at hi
      subst hi
      by_cases hz : b.Value.len = 0 <;> simp [attrRecords, hz, CK_ULONG]
    | succ j =>
      simp only [List.getElem?_cons_succ] at hi
      by_cases hz : b.Value.len = 0
      · simpa [attrRecords, hz] using ih k j a hi
      · simpa [attrRecords, hz] using ih (k + 1) j a hi

/-- Record `i` of the attribute loop: the pointer of a non-empty value. -/
theorem attrRecords_ptr (w : Nat) (L : List Attribute) :
    ∀ (blocks : List Block) (i : Nat) (a : Attribute), L[i]? = some a → a.Value.len ≠ 0 →
      ∃ r p, (attrRecords w blocks.length L)[i]? = some r ∧ r.pValue = CK_VOID_PTR.cblock p ∧
        p ∈ attrAddrs blocks.length L ∧
        (CHeap.mk (blocks ++ attrBlocks L)).block? p = some (Block.mk a.Value.bytes 0) := by
  induction L with
  | nil => intro blocks i a hi; simp at hi
  | cons b rest ih =>
    intro blocks i a hi hne
    cases i with
    | zero =>
      simp only [List.getElem?_cons_zero, Option.some.injEq] at hi
      subst hi
      simp [attrRecords, attrAddrs, attrBlocks, hne, CHeap.block?, getElem_append_length]
    | succ j =>
      simp only [List.getElem?_cons_succ] at hi
      by_cases hz : b.Value.len = 0
      · simpa [attrRecords, attrAddrs, attrBlocks, hz] using ih blocks j a hi hne
      · obtain ⟨r, p, h1, h2, h3, h4⟩ := ih (blocks ++ [Block.mk b.Value.bytes 0]) j a hi hne
        refine ⟨r, p, ?_, h2, ?_, ?_⟩
        · simpa [attrRecords, hz] using h1
        · simp only [List.length_append, List.length_singleton] at h3
          simp [attrAddrs, hz, h3]
        · simpa [attrBlocks, hz] using h4

/-- The addresses appended by the attribute loop are consecutive. -/
theorem attrAddrs_eq_range (L : List Attribute) :
    ∀ k, attrAddrs k L = List.range' (k + 1) (L.countP (fun a => a.Value.nonEmpty)) := by
  induction L with
  | nil => intro k; simp [attrAddrs]
  | cons b rest ih =>
    intro k
    by_cases hz : b.Value.len = 0
    · simp [attrAddrs, hz, ih, ByteSlice.nonEmpty]
    · simp [attrAddrs, hz, ih, ByteSlice.nonEmpty, List.countP_cons, List.range'_succ]

/-- The arena is the list of the record pointers, in record order. -/
theorem attrRecords_addrs (w : Nat) (L : List Attribute) :
    ∀ k, (attrRecords w k L).filterMap (fun r => r.pValue.addr?) = attrAddrs k L := by
  induction L with
  | nil => intro k; simp [attrRecords, attrAddrs]
  | cons b rest ih =>
    intro k
    by_cases hz : b.Value.len = 0
    · simp [attrRecords, attrAddrs, hz, ih, CK_VOID_PTR.addr?_null]
    · simp [attrRecords, attrAddrs, hz, ih, CK_VOID_PTR.addr?_cblock]

/-- The contents of the blocks of the arena, in arena order. -/
theorem attrAddrs_data (L : List Attribute) :
    ∀ blocks : List Block,
      (attrAddrs blocks.length L).map (CHeap.mk (blocks ++ attrBlocks L)).data? =
        (L.filter (fun a => a.Value.nonEmpty)).map (fun a => some a.Value.bytes) := by
  induction L with
  | nil => intro blocks; simp [attrAddrs]
  | cons b rest ih =>
    intro blocks
    by_cases hz : b.Value.len = 0
    · simpa [attrAddrs, attrBlocks, hz, ByteSlice.nonEmpty] using ih blocks
    · have := ih (blocks ++ [Block.mk b.Value.bytes 0])
      simp only [List.length_append, List.length_singleton, List.append_assoc,
        List.singleton_append] at this
      simp [attrAddrs, attrBlocks, hz, ByteSlice.nonEmpty, this, CHeap.data?, CHeap.block?,
        getElem_append_length]

/-- The mechanism loop on non-nil mechanisms with absent or raw parameters. -/
theorem cMechanismList.loop_raw (w : Nat) (M : List Mechanism)
    (hraw : ∀ m ∈ M, m.Parameter.isRaw = true) :
    ∀ (pre : List CK_MECHANISM) (ar : arena) (h : CHeap),
      cMechanismList.loop w (M.map some) pre.length
          (ar, pre ++ List.replicate M.length CK_MECHANISM.zero, h) =
        Except.ok (ar ++ attrAddrs h.blocks.length (M.map Mechanism.toAttribute),
          pre ++ (attrRecords w h.blocks.length (M.map Mechanism.toAttribute)).map
            CK_ATTRIBUTE.toMechanism,
          { blocks := h.blocks ++ attrBlocks (M.map Mechanism.toAttribute) }) := by
  induction M with
  | nil => intro pre ar h; simp [cMechanismList.loop, attrAddrs, attrRecords, attrBlocks]
  | cons m rest ih =>
    intro pre ar h
    have ih1 := ih (fun x hx => hraw x (List.mem_cons_of_mem _ hx))
    have hm := hraw m (List.mem_cons_self _ _)
    simp only [List.map_cons, List.length_cons, List.replicate_succ, cMechanismList.loop,
      modifyAt_append_length]
    simp only [CK_MECHANISM.zero] at ih1 ⊢
    have skip := ih1 (pre ++ [CK_MECHANISM.mk (CK_ULONG w m.Mechanism) CK_VOID_PTR.null 0]) ar h
    simp only [List.length_append, List.length_singleton, List.append_assoc,
      List.singleton_append] at skip
    cases hp : m.Parameter with
    | nil =>
      simp [attrAddrs, attrRecords, attrBlocks, Mechanism.toAttribute, hp, Parameter.rawBytes,
        ByteSlice.len, CK_ATTRIBUTE.toMechanism] at skip ⊢
      exact skip
    | bytes b =>
      by_cases hz : b.len = 0
      · simp [attrAddrs, attrRecords, attrBlocks, Mechanism.toAttribute, hp, Parameter.rawBytes,
          hz, CK_ATTRIBUTE.toMechanism] at skip ⊢
        exact skip
      · have := ih1 (pre ++ [CK_MECHANISM.mk (CK_ULONG w m.Mechanism)
          (CK_VOID_PTR.cblock (h.blocks.length + 1)) (CK_ULONG w b.len)])
          (ar ++ [h.blocks.length + 1]) (CHeap.mk (h.blocks ++ [Block.mk b.bytes 0]))
        simp only [List.length_append, List.length_singleton, List.append_assoc,
          List.singleton_append] at this
        simp [attrAddrs, attrRecords, attrBlocks, Mechanism.toAttribute, hp, Parameter.rawBytes,
          hz, CK_ATTRIBUTE.toMechanism, arena.Allocate_nonEmpty w ar h b hz,
          modifyAt_append_length] at this ⊢
        exact this
    | native q => simp [hp, Parameter.isRaw] at hm
    | str v => simp [hp, Parameter.isRaw] at hm
    | int v => simp [hp, Parameter.isRaw] at hm
    | oaepValue v => simp [hp, Parameter.isRaw] at hm
    | other v => simp [hp, Parameter.isRaw] at hm

/-- The mechanism list builder on a non-empty list of raw mechanisms. -/
theorem cMechanismList_raw (w : Nat) (M : List Mechanism) (h : CHeap) (hM : M ≠ [])
    (hraw : ∀ m ∈ M, m.Parameter.isRaw = true) :
    cMechanismList w (M.map some) h =
      Except.ok ((attrAddrs h.blocks.length (M.map Mechanism.toAttribute),
        some ((attrRecords w h.blocks.length (M.map Mechanism.toAttribute)).map
          CK_ATTRIBUTE.toMechanism),
        CK_ULONG w M.length),
        { blocks := h.blocks ++ attrBlocks (M.map Mechanism.toAttribute) }) := by
  have hlen : ¬ M.length = 0 := by simpa using hM
  have := cMechanismList.loop_raw w M hraw [] [] h
  simp only [List.length_nil, List.nil_append] at this
  simp [cMechanismList, hlen, this]

theorem attrBlocks_length (L : List Attribute) :
    (attrBlocks L).length = L.countP (fun a => a.Value.nonEmpty) := by
  induction L with
  | nil => simp [attrBlocks]
  | cons b rest ih =>
    by_cases hz : b.Value.len = 0 <;> simp [attrBlocks, hz, ih, ByteSlice.nonEmpty]

theorem sampleMechanisms_raw : ∀ m ∈ sampleMechanisms, m.Parameter.isRaw = true := by
  intro m hm
  simp only [sampleMechanisms, List.mem_cons, List.mem_singleton, List.not_mem_nil,
    or_false] at hm
  rcases hm with rfl | rfl | rfl | rfl <;> rfl

theorem sampleMechanisms_fits : MechFitsWord 64 sampleMechanisms := by
  refine ⟨by simp [sampleMechanisms], ?_⟩
  intro m hm
  simp only [sampleMechanisms, List.mem_cons, List.mem_singleton, List.not_mem_nil,
    or_false] at hm
  rcases hm with rfl | rfl | rfl | rfl <;> simp [ByteSlice.len, Parameter.rawBytes]

theorem attrBlocks_data_pos (L : List Attribute) :
    ∀ blk ∈ attrBlocks L, 1 ≤ blk.data.length := by
  induction L with
  | nil => simp [attrBlocks]
  | cons b rest ih =>
    by_cases hz : b.Value.len = 0
    · simpa [attrBlocks, hz] using ih
    · intro blk hblk
      simp only [attrBlocks, hz, if_false, List.mem_cons] at hblk
      rcases hblk with rfl | hblk
      · simp only [ByteSlice.bytes_length]
        omega
      · exact ih blk hblk

/-- The mechanism list builder on the empty list. -/
theorem cMechanismList_nil (w : Nat) (h : CHeap) :
    cMechanismList w [] h = Except.ok (([], none, 0), h) := by
  simp [cMechanismList]

/-- The buffer `attributesToBytes` returns has one byte per attribute. -/
theorem attributesToBytes_length (w : Nat) (varMem : Option (List CK_ATTRIBUTE) → Nat → Byte)
    (L : List Attribute) (h : CHeap) (hL : L ≠ []) (hlen : L.length < 2 ^ 31)
    (hw : 31 ≤ w) :
    ∃ bytes h1, attributesToBytes w varMem (L.map some) h = Except.ok (bytes, h1) ∧
      bytes.length = L.length := by
  have h31 : (2 : Nat) ^ 31 ≤ 2 ^ w := Nat.pow_le_pow_right (by decide) hw
  have hword : CK_ULONG w L.length = L.length := CK_ULONG_of_lt (by omega)
  have hint : C_int L.length = (L.length : Int) := by
    have hmod : L.length % 2 ^ 32 = L.length := Nat.mod_eq_of_lt (by omega)
    unfold C_int
    rw [hmod, if_pos hlen]
  refine ⟨(List.range L.length).map (varMem (some (attrRecords w h.blocks.length L))),
    arena.Free (attrAddrs h.blocks.length L) (CHeap.mk (h.blocks ++ attrBlocks L)), ?_,
    by simp⟩
  have hnn : ¬ ((L.length : Int) < 0) := by omega
  simp only [attributesToBytes, cAttributeList_eq w L h hL, hword, hint, GoBytes, if_neg hnn,
    Int.toNat_ofNat]

/-! ## Properties of the attribute list builder -/

/-- C1: for an attribute list `L` whose lengths and types are values of the
native word, `cAttributeList` returns the count `len(L)`, and record `i` carries
the type of `L[i]` and the length `len(L[i].Value)`, which is zero for a nil or
empty value; the records are in input order, one per attribute. -/
theorem cAttributeList_records (w : Nat) (L : List Attribute) (h : CHeap)
    (hfit : FitsWord w L) :
    ∃ ar ptr h1, cAttributeList w (L.map some) h = Except.ok ((ar, ptr, L.length), h1) ∧
      (arrayAt ptr).length = L.length ∧
      ∀ (i : Nat) (a : Attribute), L[i]? = some a →
        ∃ r : CK_ATTRIBUTE, (arrayAt ptr)[i]? = some r ∧ r.type = a.Typ ∧
          r.ulValueLen = a.Value.len ∧
          (a.Value = none ∨ a.Value = some [] → r.ulValueLen = 0) := by
  obtain ⟨hlen, hall⟩ := hfit
  by_cases hL : L = []
  · subst hL
    exact ⟨[], none, h, by simp [cAttributeList_nil], by simp [arrayAt], by simp⟩
  · refine ⟨attrAddrs h.blocks.length L, some (attrRecords w h.blocks.length L),
      CHeap.mk (h.blocks ++ attrBlocks L), ?_, ?_, ?_⟩
    · rw [cAttributeList_eq w L h hL, CK_ULONG_of_lt hlen]
    · simp [arrayAt, attrRecords_length]
    · intro i a hi
      obtain ⟨r, hr, ht, hl, _⟩ := attrRecords_get w L h.blocks.length i a hi
      have hmem : a ∈ L := List.getElem?_mem hi
      obtain ⟨h1, h2⟩ := hall a hmem
      refine ⟨r, by simpa [arrayAt] using hr, ?_, ?_, ?_⟩
      · rw [ht, CK_ULONG_of_lt h1]
      · rw [hl, CK_ULONG_of_lt h2]
      · rintro (hn | hn) <;> simp [hl, hn, ByteSlice.len, CK_ULONG]

/-- C1 at a list with a repeated type and a nil value, on a 64-bit word. -/
theorem cAttributeList_records_witness :
    FitsWord 64 sampleAttributes ∧
    ∃ ar ptr h1,
      cAttributeList 64 (sampleAttributes.map some) ⟨[]⟩ =
        Except.ok ((ar, ptr, sampleAttributes.length), h1) ∧
      (arrayAt ptr).length = sampleAttributes.length ∧
      ∀ (i : Nat) (a : Attribute), sampleAttributes[i]? = some a →
        ∃ r : CK_ATTRIBUTE, (arrayAt ptr)[i]? = some r ∧ r.type = a.Typ ∧
          r.ulValueLen = a.Value.len ∧
          (a.Value = none ∨ a.Value = some [] → r.ulValueLen = 0) :=
  ⟨sampleAttributes_fits, cAttributeList_records 64 sampleAttributes ⟨[]⟩ sampleAttributes_fits⟩

/-- C2: in the result of `cAttributeList`, a record of a non-empty value points
at a block that the returned arena holds and whose contents are that value; a
record of a nil or empty value has the null pointer; the arena holds one block
per non-empty value and no other, in input order. -/
theorem cAttributeList_blocks (w : Nat) (L : List Attribute) (h : CHeap) :
    ∃ ar ptr n h1, cAttributeList w (L.map some) h = Except.ok ((ar, ptr, n), h1) ∧
      (∀ (i : Nat) (a : Attribute), L[i]? = some a → a.Value.len ≠ 0 →
        ∃ (r : CK_ATTRIBUTE) (p : Nat), (arrayAt ptr)[i]? = some r ∧
          r.pValue = CK_VOID_PTR.cblock p ∧ p ∈ ar ∧ h1.data? p = some a.Value.bytes) ∧
      (∀ (i : Nat) (a : Attribute), L[i]? = some a → a.Value.len = 0 →
        ∃ r : CK_ATTRIBUTE, (arrayAt ptr)[i]? = some r ∧ r.pValue = CK_VOID_PTR.null) ∧
      ar.length = L.countP (fun a => a.Value.nonEmpty) ∧
      ar.Nodup ∧
      (arrayAt ptr).filterMap (fun r => r.pValue.addr?) = ar ∧
      ar.map h1.data? =
        (L.filter (fun a => a.Value.nonEmpty)).map (fun a => some a.Value.bytes) := by
  by_cases hL : L = []
  · subst hL
    exact ⟨[], none, 0, h, by simp [cAttributeList_nil], by simp, by simp, by simp, by simp,
      by simp [arrayAt], by simp⟩
  · refine ⟨attrAddrs h.blocks.length L, some (attrRecords w h.blocks.length L),
      CK_ULONG w L.length, CHeap.mk (h.blocks ++ attrBlocks L),
      cAttributeList_eq w L h hL, ?_, ?_, ?_, ?_, ?_, ?_⟩
    · intro i a hi hne
      obtain ⟨r, p, h1, h2, h3, h4⟩ := attrRecords_ptr w L h.blocks i a hi hne
      exact ⟨r, p, by simpa [arrayAt] using h1, h2, h3, by simp [CHeap.data?, h4]⟩
    · intro i a hi hz
      obtain ⟨r, hr, _, _, hp⟩ := attrRecords_get w L h.blocks.length i a hi
      exact ⟨r, by simpa [arrayAt] using hr, hp hz⟩
    · simp [attrAddrs_eq_range]
    · rw [attrAddrs_eq_range]
      exact List.nodup_range' _ _
    · simp [arrayAt, attrRecords_addrs]
    · exact attrAddrs_data L h.blocks

/-- C3: on the empty (or nil) attribute list `cAttributeList` returns the nil
arena, which holds no block, the nil record pointer and the count zero, and the
C heap is as it was: nothing was allocated, and `Free` releases nothing. -/
theorem cAttributeList_empty (w : Nat) (h : CHeap) :
    cAttributeList w [] h = Except.ok ((([] : arena), none, 0), h) ∧
    ([] : arena).length = 0 ∧ arena.Free [] h = h := by
  simp [cAttributeList, arena.Free]

/-! ## Properties of the mechanism list builder -/

/-- C4: for a non-empty mechanism list whose parameters are absent or raw byte
buffers (and whose lengths and identifiers are values of the native word),
`cMechanismList` returns `len(M)` records in input order; record `i` carries the
identifier of `M[i]`; an absent or empty parameter gives the null pointer and
length zero and no allocation; a non-empty buffer `b` gives the length `len(b)`
and a pointer to a block held by the arena whose contents are `b`. -/
theorem cMechanismList_raw_records (w : Nat) (M : List Mechanism) (h : CHeap)
    (hM : M ≠ []) (hraw : ∀ m ∈ M, m.Parameter.isRaw = true) (hfit : MechFitsWord w M) :
    ∃ ar recs h1, cMechanismList w (M.map some) h = Except.ok ((ar, some recs, M.length), h1) ∧
      recs.length = M.length ∧
      (∀ (i : Nat) (m : Mechanism), M[i]? = some m →
        ∃ r : CK_MECHANISM, recs[i]? = some r ∧ r.mechanism = m.Mechanism ∧
          (m.Parameter.rawBytes.len = 0 →
            r.pParameter = CK_VOID_PTR.null ∧ r.ulParameterLen = 0) ∧
          (m.Parameter.rawBytes.len ≠ 0 →
            r.ulParameterLen = m.Parameter.rawBytes.len ∧
            ∃ p : Nat, r.pParameter = CK_VOID_PTR.cblock p ∧ p ∈ ar ∧
              h1.data? p = some m.Parameter.rawBytes.bytes)) ∧
      ar.length = M.countP (fun m => m.Parameter.rawBytes.nonEmpty) ∧
      h1.blocks.length = h.blocks.length + ar.length := by
  obtain ⟨hlen, hall⟩ := hfit
  refine ⟨attrAddrs h.blocks.length (M.map Mechanism.toAttribute),
    (attrRecords w h.blocks.length (M.map Mechanism.toAttribute)).map CK_ATTRIBUTE.toMechanism,
    CHeap.mk (h.blocks ++ attrBlocks (M.map Mechanism.toAttribute)), ?_, ?_, ?_, ?_, ?_⟩
  · rw [cMechanismList_raw w M h hM hraw, CK_ULONG_of_lt hlen]
  · simp [attrRecords_length]
  · intro i m hi
    have hi1 : (M.map Mechanism.toAttribute)[i]? = some m.toAttribute := by
      simp [List.getElem?_map, hi]
    obtain ⟨h1, h2⟩ := hall m (List.getElem?_mem hi)
    obtain ⟨r, hr, ht, hl, hp⟩ := attrRecords_get w _ h.blocks.length i _ hi1
    refine ⟨r.toMechanism, by simp [List.getElem?_map, hr], ?_, ?_, ?_⟩
    · simp only [CK_ATTRIBUTE.toMechanism, ht, Mechanism.toAttribute]
      exact CK_ULONG_of_lt h1
    · intro hz
      refine ⟨hp hz, ?_⟩
      simp only [CK_ATTRIBUTE.toMechanism, hl, Mechanism.toAttribute, hz]
      simp [CK_ULONG]
    · intro hne
      refine ⟨?_, ?_⟩
      · simp only [CK_ATTRIBUTE.toMechanism, hl, Mechanism.toAttribute]
        exact CK_ULONG_of_lt h2
      · obtain ⟨r1, p, q1, q2, q3, q4⟩ := attrRecords_ptr w _ h.blocks i _ hi1 hne
        rw [hr] at q1
        simp only [Option.some.injEq] at q1
        subst q1
        exact ⟨p, q2, q3, by simp [CHeap.data?, q4, Mechanism.toAttribute]⟩
  · simp [attrAddrs_eq_range, List.countP_map, Function.comp_def, Mechanism.toAttribute]
  · simp [attrAddrs_eq_range, attrBlocks_length]

/-- C4 at a list with an absent, a raw, a nil-buffer and an empty-buffer
parameter, on a 64-bit word. -/
theorem cMechanismList_raw_records_witness :
    ∃ ar recs h1, cMechanismList 64 (sampleMechanisms.map some) ⟨[]⟩ =
        Except.ok ((ar, some recs, sampleMechanisms.length), h1) ∧
      recs.length = sampleMechanisms.length ∧
      (∀ (i : Nat) (m : Mechanism), sampleMechanisms[i]? = some m →
        ∃ r : CK_MECHANISM, recs[i]? = some r ∧ r.mechanism = m.Mechanism ∧
          (m.Parameter.rawBytes.len = 0 →
            r.pParameter = CK_VOID_PTR.null ∧ r.ulParameterLen = 0) ∧
          (m.Parameter.rawBytes.len ≠ 0 →
            r.ulParameterLen = m.Parameter.rawBytes.len ∧
            ∃ p : Nat, r.pParameter = CK_VOID_PTR.cblock p ∧ p ∈ ar ∧
              h1.data? p = some m.Parameter.rawBytes.bytes)) ∧
      ar.length = sampleMechanisms.countP (fun m => m.Parameter.rawBytes.nonEmpty) ∧
      h1.blocks.length = (CHeap.mk []).blocks.length + ar.length :=
  cMechanismList_raw_records 64 sampleMechanisms ⟨[]⟩ (by simp [sampleMechanisms])
    sampleMechanisms_raw sampleMechanisms_fits

/-- C5: a mechanism list with a raw buffer and a structured parameter whose
`toNative` allocates a block from the arena it is handed.  The arena that
`cMechanismList` returns holds the block of the raw buffer only; the block of
the structured parameter (address 2) is in the record but not in the arena, and
`Free` on the returned arena leaves it unreleased. -/
theorem cMechanismList_structured_block_not_held :
    cMechanismList 64 (structuredMechanisms.map some) ⟨[]⟩ =
      Except.ok (([1], some [⟨1, CK_VOID_PTR.cblock 1, 1⟩, ⟨9, CK_VOID_PTR.cblock 2, 3⟩], 2),
        ⟨[⟨[7], 0⟩, ⟨[1, 2, 3], 0⟩]⟩) ∧
    arena.Free [1] ⟨[⟨[7], 0⟩, ⟨[1, 2, 3], 0⟩]⟩ = ⟨[⟨[7], 1⟩, ⟨[1, 2, 3], 0⟩]⟩ ∧
    (arena.Free [1] ⟨[⟨[7], 0⟩, ⟨[1, 2, 3], 0⟩]⟩).frees 2 = 0 := by
  decide

/-! ## Properties of the structured parameter encoder -/

/-- C6: `OaepParams.toNative` never returns a record: for every parameter, arena
and heap it stops with a nil pointer dereference at its first field write,
before any storage is obtained; so does `cMechanismList` on a list that carries
such a parameter. -/
theorem OaepParams.toNative_nilDereference (w : Nat) (p : OaepParams) (ar : arena)
    (h : CHeap) (mech : Nat) :
    OaepParams.toNative w p ar h = Except.error Panic.nilDereference ∧
    cMechanismList w [some ⟨mech, Parameter.native (OaepParams.asParam w p)⟩] h =
      Except.error Panic.nilDereference :=
  ⟨rfl, rfl⟩

/-! ## Properties of the arena -/

/-- C7: `Allocate` on a non-empty buffer `b` (whose length is a value of the
native word) returns the length `len(b)` and a pointer to a block that did not
exist before, has `len(b)` bytes and holds the bytes of `b`; the arena is the
previous arena followed by that one block, and every other block is as it
was. -/
theorem arena.Allocate_block (w : Nat) (a : arena) (h : CHeap) (b : ByteSlice)
    (hne : b.len ≠ 0) (hfit : b.len < 2 ^ w) :
    ∃ (p : Nat) (h1 : CHeap),
      arena.Allocate w a h b = Except.ok ((CK_VOID_PTR.cblock p, b.len), a ++ [p], h1) ∧
      p ≠ 0 ∧ h.block? p = none ∧
      h1.block? p = some { data := b.bytes, frees := 0 } ∧
      (h1.data? p).map List.length = some b.len ∧
      (∀ q : Nat, q ≠ p → h1.block? q = h.block? q) ∧
      h1.blocks.length = h.blocks.length + 1 := by
  refine ⟨h.blocks.length + 1, CHeap.mk (h.blocks ++ [Block.mk b.bytes 0]), ?_, ?_, ?_, ?_, ?_,
    ?_, ?_⟩
  · rw [arena.Allocate_nonEmpty w a h b hne, CK_ULONG_of_lt hfit]
  · simp
  · simp [CHeap.block?]
  · simp [CHeap.block?]
  · simp [CHeap.data?, CHeap.block?, ByteSlice.bytes_length]
  · intro q hq
    cases q with
    | zero => rfl
    | succ k =>
      have hk : k ≠ h.blocks.length := fun e => hq (by rw [e])
      simp only [CHeap.block?]
      rcases Nat.lt_or_ge k h.blocks.length with hlt | hge
      · simp [List.getElem?_append_left hlt]
      · have hgt : h.blocks.length < k := lt_of_le_of_ne hge (Ne.symm hk)
        rw [List.getElem?_eq_none (by simp; omega), List.getElem?_eq_none (by omega)]
  · simp

/-- C7 at a three-byte buffer, an arena with one block and a 64-bit word. -/
theorem arena.Allocate_block_witness :
    ∃ (p : Nat) (h1 : CHeap),
      arena.Allocate 64 [1] ⟨[⟨[7], 0⟩]⟩ (some [1, 2, 3]) =
        Except.ok ((CK_VOID_PTR.cblock p, ByteSlice.len (some [1, 2, 3])), [1] ++ [p], h1) ∧
      p ≠ 0 ∧ (CHeap.mk [⟨[7], 0⟩]).block? p = none ∧
      h1.block? p = some { data := ByteSlice.bytes (some [1, 2, 3]), frees := 0 } ∧
      (h1.data? p).map List.length = some (ByteSlice.len (some [1, 2, 3])) ∧
      (∀ q : Nat, q ≠ p → h1.block? q = (CHeap.mk [⟨[7], 0⟩]).block? q) ∧
      h1.blocks.length = (CHeap.mk [⟨[7], 0⟩]).blocks.length + 1 :=
  arena.Allocate_block 64 [1] ⟨[⟨[7], 0⟩]⟩ (some [1, 2, 3]) (by decide) (by decide)

/-- Method `Allocate` once per non-empty buffer: consecutive addresses, one block per
buffer. -/
theorem allocateAll_eq (w : Nat) (bufs : List ByteSlice) (hne : ∀ b ∈ bufs, b.len ≠ 0) :
    ∀ (a : arena) (h : CHeap),
      allocateAll w bufs a h =
        Except.ok ((List.range' (h.blocks.length + 1) bufs.length).map CK_VOID_PTR.cblock,
          a ++ List.range' (h.blocks.length + 1) bufs.length,
          { blocks := h.blocks ++ bufs.map (blockOf 0) }) := by
  induction bufs with
  | nil => intro a h; simp [allocateAll]
  | cons b bs ih =>
    intro a h
    have hb := hne b (List.mem_cons_self _ _)
    have ih1 := ih (fun x hx => hne x (List.mem_cons_of_mem _ hx)) (a ++ [h.blocks.length + 1])
      (CHeap.mk (h.blocks ++ [Block.mk b.bytes 0]))
    simp only [List.length_append, List.length_singleton, List.append_assoc,
      List.singleton_append] at ih1
    simp [allocateAll, arena.Allocate_nonEmpty w a h b hb, ih1, List.range'_succ, blockOf]

/-- Method `Free` on consecutive addresses adds one release to each of their blocks. -/
theorem arena.Free_range (mid : List Block) :
    ∀ pre : List Block,
      arena.Free (List.range' (pre.length + 1) mid.length) { blocks := pre ++ mid } =
        { blocks := pre ++ mid.map (fun b => { b with frees := b.frees + 1 }) } := by
  induction mid with
  | nil => intro pre; simp [arena.Free]
  | cons x xs ih =>
    intro pre
    have ih1 := ih (pre ++ [Block.mk x.data (x.frees + 1)])
    simp only [List.length_append, List.length_singleton, List.append_assoc,
      List.singleton_append, arena.Free] at ih1
    simp [arena.Free, List.range'_succ, free, modifyAt_append_length, ih1]

theorem frees_new_block (c : Nat) (pre : List Block) (bufs : List ByteSlice) (j : Nat)
    (hle : pre.length ≤ j) (hlt : j < pre.length + bufs.length) :
    (CHeap.mk (pre ++ bufs.map (blockOf c))).frees (j + 1) = c := by
  have hj : j - pre.length < bufs.length := by omega
  simp [CHeap.frees, CHeap.block?, List.getElem?_append_right hle, List.getElem?_map,
    List.getElem?_eq_getElem hj, blockOf]

theorem block?_old_block (pre xs ys : List Block) (hlen : xs.length = ys.length) (p : Nat)
    (hp : p ≤ pre.length ∨ pre.length + xs.length < p) :
    (CHeap.mk (pre ++ xs)).block? p = (CHeap.mk (pre ++ ys)).block? p := by
  cases p with
  | zero => rfl
  | succ j =>
    simp only [CHeap.block?]
    rcases hp with hp | hp
    · have hj : j < pre.length := by omega
      simp [List.getElem?_append_left hj]
    · rw [List.getElem?_eq_none (by simp; omega), List.getElem?_eq_none (by simp; omega)]

theorem totalFrees_append_blockOf (c : Nat) (pre : List Block) (bufs : List ByteSlice) :
    (CHeap.mk (pre ++ bufs.map (blockOf c))).totalFrees =
      (CHeap.mk pre).totalFrees + c * bufs.length := by
  induction bufs with
  | nil => simp [CHeap.totalFrees]
  | cons b bs ih =>
    simp only [CHeap.totalFrees, List.map_append, List.map_cons, List.sum_append,
      List.sum_cons, List.length_cons] at ih ⊢
    simp only [blockOf, Nat.mul_add] at ih ⊢
    omega

/-- C8: starting from the empty arena, `Allocate` once per buffer of a list of
N non-empty buffers and then `Free` once releases exactly N blocks: every block
an `Allocate` call returned has been released once, no other block has been
touched, and the heap has received N releases in all. -/
theorem arena.Free_releases_allocated (w : Nat) (bufs : List ByteSlice) (h : CHeap)
    (hne : ∀ b ∈ bufs, b.len ≠ 0) :
    ∃ (ps : List CK_VOID_PTR) (a : arena) (h1 : CHeap),
      allocateAll w bufs [] h = Except.ok (ps, a, h1) ∧
      ps.length = bufs.length ∧ ps = a.map CK_VOID_PTR.cblock ∧ a.Nodup ∧
      (∀ p ∈ a, h1.frees p = 0 ∧ (arena.Free a h1).frees p = 1) ∧
      (∀ p : Nat, p ∉ a → (arena.Free a h1).block? p = h1.block? p) ∧
      (arena.Free a h1).totalFrees = h1.totalFrees + bufs.length := by
  have hfree : arena.Free (List.range' (h.blocks.length + 1) bufs.length)
      (CHeap.mk (h.blocks ++ bufs.map (blockOf 0))) =
      CHeap.mk (h.blocks ++ bufs.map (blockOf 1)) := by
    have := arena.Free_range (bufs.map (blockOf 0)) h.blocks
    simp only [List.length_map] at this
    rw [this]
    simp [blockOf, Function.comp_def]
  refine ⟨_, List.range' (h.blocks.length + 1) bufs.length,
    CHeap.mk (h.blocks ++ bufs.map (blockOf 0)), ?_, ?_, rfl, List.nodup_range' _ _, ?_, ?_, ?_⟩
  · simpa using allocateAll_eq w bufs hne [] h
  · simp
  · intro p hp
    rw [hfree]
    obtain ⟨h1, h2⟩ := List.mem_range'_1.mp hp
    cases p with
    | zero => omega
    | succ j =>
      exact ⟨frees_new_block 0 h.blocks bufs j (by omega) (by omega),
        frees_new_block 1 h.blocks bufs j (by omega) (by omega)⟩
  · intro p hp
    rw [hfree]
    apply block?_old_block _ _ _ (by simp)
    simp only [List.length_map]
    by_contra hc
    exact hp (List.mem_range'_1.mpr (by omega))
  · rw [hfree, totalFrees_append_blockOf, totalFrees_append_blockOf]
    omega

/-- C8 at three buffers on a heap that already holds a block. -/
theorem arena.Free_releases_allocated_witness :
    ∃ (ps : List CK_VOID_PTR) (a : arena) (h1 : CHeap),
      allocateAll 64 [some [1], some [2, 3], some [4]] [] ⟨[⟨[7], 0⟩]⟩ = Except.ok (ps, a, h1) ∧
      ps.length = [some [1], some [2, 3], (some [4] : ByteSlice)].length ∧
      ps = a.map CK_VOID_PTR.cblock ∧ a.Nodup ∧
      (∀ p ∈ a, h1.frees p = 0 ∧ (arena.Free a h1).frees p = 1) ∧
      (∀ p : Nat, p ∉ a → (arena.Free a h1).block? p = h1.block? p) ∧
      (arena.Free a h1).totalFrees =
        h1.totalFrees + [some [1], some [2, 3], (some [4] : ByteSlice)].length :=
  arena.Free_releases_allocated 64 [some [1], some [2, 3], some [4]] ⟨[⟨[7], 0⟩]⟩ (by decide)

/-- C9: `Allocate` on a buffer without bytes fails with an index error, and the
builders never reach that failure: on every list of non-nil attributes, and on
every list of non-nil mechanisms whose parameters are absent or raw byte
buffers, the builder returns, it adds exactly one block per address it put in
the arena, and every block it added (each the copy of the buffer one `Allocate`
call received) has at least one byte. -/
theorem builders_never_allocate_empty (w : Nat) (a : arena) (h : CHeap) (b : ByteSlice)
    (L : List Attribute) (M : List Mechanism) (hb : b.len = 0)
    (hraw : ∀ m ∈ M, m.Parameter.isRaw = true) :
    arena.Allocate w a h b = Except.error Panic.indexOutOfRange ∧
    (∃ ar ptr n h1, cAttributeList w (L.map some) h = Except.ok ((ar, ptr, n), h1) ∧
      h1.blocks.length = h.blocks.length + ar.length ∧
      ∀ blk ∈ h1.blocks.drop h.blocks.length, 1 ≤ blk.data.length) ∧
    (∃ ar ptr n h1, cMechanismList w (M.map some) h = Except.ok ((ar, ptr, n), h1) ∧
      h1.blocks.length = h.blocks.length + ar.length ∧
      ∀ blk ∈ h1.blocks.drop h.blocks.length, 1 ≤ blk.data.length) := by
  refine ⟨arena.Allocate_empty w a h b hb, ?_, ?_⟩
  · by_cases hL : L = []
    · subst hL
      exact ⟨[], none, 0, h, by simp [cAttributeList_nil], by simp, by simp⟩
    · refine ⟨_, _, _, _, cAttributeList_eq w L h hL, ?_, ?_⟩
      · simp [attrAddrs_eq_range, attrBlocks_length]
      · simpa using attrBlocks_data_pos L
  · by_cases hM : M = []
    · subst hM
      exact ⟨[], none, 0, h, by simp [cMechanismList_nil], by simp, by simp⟩
    · refine ⟨_, _, _, _, cMechanismList_raw w M h hM hraw, ?_, ?_⟩
      · simp [attrAddrs_eq_range, attrBlocks_length]
      · simpa using attrBlocks_data_pos (M.map Mechanism.toAttribute)

/-- C9 at the nil buffer, a list with nil and empty values and a list with an
absent, a nil-buffer and an empty-buffer parameter. -/
theorem builders_never_allocate_empty_witness :
    arena.Allocate 64 [] ⟨[]⟩ none = Except.error Panic.indexOutOfRange ∧
    (∃ ar ptr n h1,
      cAttributeList 64 (sampleAttributes.map some) ⟨[]⟩ = Except.ok ((ar, ptr, n), h1) ∧
      h1.blocks.length = (CHeap.mk []).blocks.length + ar.length ∧
      ∀ blk ∈ h1.blocks.drop (CHeap.mk []).blocks.length, 1 ≤ blk.data.length) ∧
    (∃ ar ptr n h1,
      cMechanismList 64 (sampleMechanisms.map some) ⟨[]⟩ = Except.ok ((ar, ptr, n), h1) ∧
      h1.blocks.length = (CHeap.mk []).blocks.length + ar.length ∧
      ∀ blk ∈ h1.blocks.drop (CHeap.mk []).blocks.length, 1 ≤ blk.data.length) :=
  builders_never_allocate_empty 64 [] ⟨[]⟩ none sampleAttributes sampleMechanisms rfl
    sampleMechanisms_raw

/-! ## Properties of the nested attribute encoding -/

/-- C10: on a template of two attributes and a 64-bit word `attributesToBytes`
returns two bytes, the first two bytes stored at the address of the local
pointer variable, where an array of two native records takes 48 bytes; the two
blocks of the values have been released. -/
theorem attributesToBytes_two_attributes
    (varMem : Option (List CK_ATTRIBUTE) → Nat → Byte) :
    attributesToBytes 64 varMem (nestedAttributes.map some) ⟨[]⟩ =
      Except.ok
        ([varMem (some [⟨0, CK_VOID_PTR.cblock 1, 8⟩, ⟨1, CK_VOID_PTR.cblock 2, 1⟩]) 0,
          varMem (some [⟨0, CK_VOID_PTR.cblock 1, 8⟩, ⟨1, CK_VOID_PTR.cblock 2, 1⟩]) 1],
        ⟨[⟨[3, 0, 0, 0, 0, 0, 0, 0], 1⟩, ⟨[1], 1⟩]⟩) ∧
    nestedAttributes.length * CK_ATTRIBUTE.sizeof 64 = 48 := by
  constructor
  · rfl
  · decide


/-! ## Properties of the integer encoders -/

theorem leValue_append (xs ys : List Byte) :
    leValue (xs ++ ys) = leValue xs + 256 ^ xs.length * leValue ys := by
  induction xs with
  | nil => simp [leValue]
  | cons x xs ih => simp [leValue, ih, Nat.pow_succ]; ring

theorem leValue_range (v : Nat) :
    ∀ k, leValue ((List.range k).map (fun i => byteOf (v / 256 ^ i))) = v % 256 ^ k := by
  intro k
  induction k with
  | zero => simp [leValue, Nat.mod_one]
  | succ k ih =>
    rw [List.range_succ, List.map_append, leValue_append, ih]
    simp only [List.map_cons, List.map_nil, leValue, List.length_map, List.length_range,
      byteOf, Nat.mul_zero, Nat.add_zero]
    rw [Nat.pow_succ, Nat.mod_mul]

theorem map_range_sub (k : Nat) (g : Nat → Byte) :
    (List.range k).map (fun i => g (k - 1 - i)) = ((List.range k).map g).reverse := by
  have h : (List.range k).reverse = (List.range k).map (fun i => k - 1 - i) := by
    have := List.reverse_range' 0 k
    simpa [← List.range_eq_range'] using this
  rw [← List.map_reverse, h, List.map_map]
  rfl

theorem pow_256_div_8 {w : Nat} (h8 : 8 ∣ w) : 256 ^ (w / 8) = 2 ^ w := by
  obtain ⟨k, rfl⟩ := h8
  rw [Nat.mul_div_cancel_left k (by decide), Nat.pow_mul]

theorem uintToBytes_length (w : Nat) (order : ByteOrder) (x : Nat) :
    (uintToBytes w order x).length = w / 8 := by
  simp [uintToBytes]

/-- Decoding the bytes of `uintToBytes` gives the argument modulo the word. -/
theorem wordOfBytes_uintToBytes (w : Nat) (order : ByteOrder) (x : Nat) (h8 : 8 ∣ w) :
    wordOfBytes order (uintToBytes w order x) = x % 2 ^ w := by
  cases order with
  | little =>
    have hm : wordMem w ByteOrder.little (CK_ULONG w x) =
        fun i => byteOf (CK_ULONG w x / 256 ^ i) := rfl
    simp only [wordOfBytes, uintToBytes]
    rw [hm, leValue_range, pow_256_div_8 h8, CK_ULONG, Nat.mod_mod]
  | big =>
    have hm : wordMem w ByteOrder.big (CK_ULONG w x) =
        fun i => (fun j => byteOf (CK_ULONG w x / 256 ^ j)) (w / 8 - 1 - i) := rfl
    simp only [wordOfBytes, uintToBytes]
    rw [hm, map_range_sub (w / 8) (fun j => byteOf (CK_ULONG w x / 256 ^ j)),
      List.reverse_reverse, leValue_range, pow_256_div_8 h8, CK_ULONG, Nat.mod_mod]

theorem uint64OfInt_natCast (v : Nat) (hv : v < 2 ^ 64) : uint64OfInt (v : Int) = v := by
  unfold uint64OfInt
  have h : ((v : Int) % 2 ^ 64) = ((v % 2 ^ 64 : Nat) : Int) := by norm_cast
  rw [h, Int.toNat_ofNat, Nat.mod_eq_of_lt hv]

theorem uint64OfInt_neg (v : Int) (hneg : v < 0) (hmin : -2 ^ 63 ≤ v) :
    uint64OfInt v = (2 ^ 64 + v).toNat := by
  unfold uint64OfInt
  have h : v % 2 ^ 64 = 2 ^ 64 + v := by omega
  rw [h]

/-- C11: for a word of `w` bits (`w` a multiple of 8, at most 64) and every
value `v` below `2 ^ w`, `uintToBytes` returns `w / 8` bytes that decode, in the
same byte order, to `v`; the `Value` that `NewAttribute` produces for the
`uint` `v` and for the `int` `v` has the same two properties. -/
theorem uintToBytes_roundtrip (w : Nat) (order : ByteOrder) (v typ : Nat)
    (varMem : Option (List CK_ATTRIBUTE) → Nat → Byte) (h : CHeap)
    (h8 : 8 ∣ w) (hw : w ≤ 64) (hv : v < 2 ^ w) :
    (uintToBytes w order v).length = w / 8 ∧
    wordOfBytes order (uintToBytes w order v) = v ∧
    (∃ bytes : List Byte,
      NewAttribute w order varMem typ (GoValue.uint v) h =
        Except.ok ({ Typ := typ, Value := some bytes }, h) ∧
      bytes.length = w / 8 ∧ wordOfBytes order bytes = v) ∧
    (∃ bytes : List Byte,
      NewAttribute w order varMem typ (GoValue.int v) h =
        Except.ok ({ Typ := typ, Value := some bytes }, h) ∧
      bytes.length = w / 8 ∧ wordOfBytes order bytes = v) := by
  have hdec : wordOfBytes order (uintToBytes w order v) = v := by
    rw [wordOfBytes_uintToBytes w order v h8, Nat.mod_eq_of_lt hv]
  have h64 : v < 2 ^ 64 := lt_of_lt_of_le hv (Nat.pow_le_pow_right (by decide) hw)
  refine ⟨uintToBytes_length w order v, hdec, ?_, ?_⟩
  · exact ⟨uintToBytes w order v, rfl, uintToBytes_length w order v, hdec⟩
  · refine ⟨uintToBytes w order v, ?_, uintToBytes_length w order v, hdec⟩
    simp [NewAttribute, uint64OfInt_natCast v h64]

/-- C11 at the value `0x0102030405060708` on a 64-bit big-endian word. -/
theorem uintToBytes_roundtrip_witness :
    (uintToBytes 64 ByteOrder.big 0x0102030405060708).length = 64 / 8 ∧
    wordOfBytes ByteOrder.big (uintToBytes 64 ByteOrder.big 0x0102030405060708) =
      0x0102030405060708 ∧
    (∃ bytes : List Byte,
      NewAttribute 64 ByteOrder.big (fun _ _ => 0) 17 (GoValue.uint 0x0102030405060708) ⟨[]⟩ =
        Except.ok ({ Typ := 17, Value := some bytes }, ⟨[]⟩) ∧
      bytes.length = 64 / 8 ∧ wordOfBytes ByteOrder.big bytes = 0x0102030405060708) ∧
    (∃ bytes : List Byte,
      NewAttribute 64 ByteOrder.big (fun _ _ => 0) 17
          (GoValue.int ((0x0102030405060708 : Nat) : Int)) ⟨[]⟩ =
        Except.ok ({ Typ := 17, Value := some bytes }, ⟨[]⟩) ∧
      bytes.length = 64 / 8 ∧ wordOfBytes ByteOrder.big bytes = 0x0102030405060708) :=
  uintToBytes_roundtrip 64 ByteOrder.big 0x0102030405060708 17 (fun _ _ => 0) ⟨[]⟩
    (by decide) (by decide) (by decide)

/-- C20: `uintToBytes` never rejects and reduces modulo the native word: for
every argument `x` it returns `w / 8` bytes, the same bytes as for `x` reduced
modulo `2 ^ w`, and these bytes decode to `x mod 2 ^ w`; `NewAttribute` on a
negative `int` `v` returns the bytes that decode to the two's complement value
`(2 ^ 64 + v) mod 2 ^ w`; on a non-negative `int` it returns the same value as
on the `uint` of that number, bytes that decode to the number modulo
`2 ^ w`. -/
theorem uintToBytes_mod_word (w : Nat) (order : ByteOrder) (x typ : Nat) (vneg : Int)
    (vpos : Nat) (varMem : Option (List CK_ATTRIBUTE) → Nat → Byte) (h : CHeap)
    (h8 : 8 ∣ w) (hneg : vneg < 0) (hmin : -2 ^ 63 ≤ vneg) (hpos : vpos < 2 ^ 63) :
    (uintToBytes w order x).length = w / 8 ∧
    uintToBytes w order x = uintToBytes w order (x % 2 ^ w) ∧
    wordOfBytes order (uintToBytes w order x) = x % 2 ^ w ∧
    (∃ bytes : List Byte,
      NewAttribute w order varMem typ (GoValue.int vneg) h =
        Except.ok (Attribute.mk typ (some bytes), h) ∧
      bytes = uintToBytes w order ((2 ^ 64 + vneg).toNat % 2 ^ w) ∧
      bytes.length = w / 8 ∧
      wordOfBytes order bytes = (2 ^ 64 + vneg).toNat % 2 ^ w) ∧
    (∃ bytes : List Byte,
      NewAttribute w order varMem typ (GoValue.int vpos) h =
        Except.ok (Attribute.mk typ (some bytes), h) ∧
      NewAttribute w order varMem typ (GoValue.uint vpos) h =
        Except.ok (Attribute.mk typ (some bytes), h) ∧
      bytes.length = w / 8 ∧
      wordOfBytes order bytes = vpos % 2 ^ w) := by
  have hmod : ∀ y, uintToBytes w order y = uintToBytes w order (y % 2 ^ w) := by
    intro y
    simp [uintToBytes, CK_ULONG]
  refine ⟨uintToBytes_length w order x, hmod x, wordOfBytes_uintToBytes w order x h8, ?_, ?_⟩
  · refine ⟨uintToBytes w order (2 ^ 64 + vneg).toNat, ?_, hmod _, uintToBytes_length _ _ _,
      wordOfBytes_uintToBytes w order _ h8⟩
    simp only [NewAttribute, uint64OfInt_neg vneg hneg hmin]
  · have h64 : vpos < 2 ^ 64 := by omega
    refine ⟨uintToBytes w order vpos, ?_, rfl, uintToBytes_length _ _ _,
      wordOfBytes_uintToBytes w order _ h8⟩
    simp [NewAttribute, uint64OfInt_natCast vpos h64]

/-- C20 at `x = 2 ^ 32 + 5`, the `int` -1 and the value 7 on a 32-bit
little-endian word. -/
theorem uintToBytes_mod_word_witness :
    (uintToBytes 32 ByteOrder.little (2 ^ 32 + 5)).length = 32 / 8 ∧
    uintToBytes 32 ByteOrder.little (2 ^ 32 + 5) =
      uintToBytes 32 ByteOrder.little ((2 ^ 32 + 5) % 2 ^ 32) ∧
    wordOfBytes ByteOrder.little (uintToBytes 32 ByteOrder.little (2 ^ 32 + 5)) =
      (2 ^ 32 + 5) % 2 ^ 32 ∧
    (∃ bytes : List Byte,
      NewAttribute 32 ByteOrder.little (fun _ _ => 0) 17 (GoValue.int (-1)) ⟨[]⟩ =
        Except.ok (Attribute.mk 17 (some bytes), ⟨[]⟩) ∧
      bytes = uintToBytes 32 ByteOrder.little ((2 ^ 64 + (-1 : Int)).toNat % 2 ^ 32) ∧
      bytes.length = 32 / 8 ∧
      wordOfBytes ByteOrder.little bytes = (2 ^ 64 + (-1 : Int)).toNat % 2 ^ 32) ∧
    (∃ bytes : List Byte,
      NewAttribute 32 ByteOrder.little (fun _ _ => 0) 17 (GoValue.int (7 : Nat)) ⟨[]⟩ =
        Except.ok (Attribute.mk 17 (some bytes), ⟨[]⟩) ∧
      NewAttribute 32 ByteOrder.little (fun _ _ => 0) 17 (GoValue.uint 7) ⟨[]⟩ =
        Except.ok (Attribute.mk 17 (some bytes), ⟨[]⟩) ∧
      bytes.length = 32 / 8 ∧
      wordOfBytes ByteOrder.little bytes = 7 % 2 ^ 32) :=
  uintToBytes_mod_word 32 ByteOrder.little (2 ^ 32 + 5) 17 (-1) 7 (fun _ _ => 0) ⟨[]⟩
    (by decide) (by decide) (by decide) (by decide)

/-- The inner loop of `uintArrayToBytes` copies `v` over the `i`-th group. -/
theorem uintArrayToBytes.inner_eq (ulSize i : Nat) (v pre post : List Byte)
    (hpre : pre.length = i * ulSize) :
    ∀ (n j : Nat) (mid : List Byte), j + n = v.length → mid.length = n →
      uintArrayToBytes.inner ulSize i v n j (pre ++ (v.take j ++ mid) ++ post) =
        pre ++ v ++ post := by
  intro n
  induction n with
  | zero =>
    intro j mid hj hmid
    have hm : mid = [] := List.length_eq_zero.mp hmid
    have hjv : j = v.length := by omega
    subst hm
    simp [uintArrayToBytes.inner, hjv]
  | succ n ih =>
    intro j mid hj hmid
    cases mid with
    | nil => simp at hmid
    | cons m0 rest =>
      have hlt : j < v.length := by omega
      have hidx : i * ulSize + j = (pre ++ v.take j).length := by
        rw [List.length_append, List.length_take, hpre, Nat.min_eq_left (Nat.le_of_lt hlt)]
      have hshape : pre ++ (v.take j ++ m0 :: rest) ++ post =
          (pre ++ v.take j) ++ m0 :: (rest ++ post) := by simp
      have hnext : (pre ++ v.take j) ++ v.getD j 0 :: (rest ++ post) =
          pre ++ (v.take (j + 1) ++ rest) ++ post := by
        have hg : v[j]? = some (v.getD j 0) := by
          rw [List.getD_eq_getElem?_getD, List.getElem?_eq_getElem hlt]
          rfl
        rw [List.take_succ, hg]
        simp
      simp only [uintArrayToBytes.inner]
      rw [hshape, hidx, modifyAt_append_length, hnext]
      exact ih (j + 1) rest (by omega) (by simpa using hmid)

/-- The outer loop of `uintArrayToBytes` writes the encodings one after the
other. -/
theorem uintArrayToBytes.outer_eq (w : Nat) (order : ByteOrder) (x : List Nat) :
    ∀ (i : Nat) (pre : List Byte), pre.length = i * (w / 8) →
      uintArrayToBytes.outer w order x i (pre ++ List.replicate (x.length * (w / 8)) 0) =
        pre ++ (x.map (uintToBytes w order)).flatten := by
  induction x with
  | nil => intro i pre _; simp [uintArrayToBytes.outer]
  | cons xi rest ih =>
    intro i pre hpre
    have hsplit : List.replicate ((xi :: rest).length * (w / 8)) (0 : Byte) =
        List.replicate (w / 8) 0 ++ List.replicate (rest.length * (w / 8)) 0 := by
      rw [← List.replicate_add]
      congr 1
      simp [Nat.succ_mul, Nat.add_comm]
    have hin := uintArrayToBytes.inner_eq (w / 8) i (uintToBytes w order xi) pre
      (List.replicate (rest.length * (w / 8)) 0) hpre (w / 8) 0 (List.replicate (w / 8) 0)
      (by simp [uintToBytes_length]) (by simp)
    simp only [List.take_zero, List.nil_append] at hin
    simp only [uintArrayToBytes.outer]
    rw [hsplit, ← List.append_assoc, hin]
    have := ih (i + 1) (pre ++ uintToBytes w order xi)
      (by simp [hpre, uintToBytes_length, Nat.succ_mul])
    rw [this]
    simp

theorem uintArrayToBytes_eq (w : Nat) (order : ByteOrder) (x : List Nat) :
    uintArrayToBytes w order x = (x.map (uintToBytes w order)).flatten := by
  have := uintArrayToBytes.outer_eq w order x 0 [] (by simp)
  simpa [uintArrayToBytes] using this

/-- C12: `uintArrayToBytes` is the concatenation, in list order, of the
`uintToBytes` encodings of the elements; its length is `len(x)` times the size
of the native word, the empty list encodes to the empty buffer, and the
encoding of a concatenation is the concatenation of the encodings;
`NewAttribute` stores that buffer for a list of integers. -/
theorem uintArrayToBytes_concat (w : Nat) (order : ByteOrder) (x y : List Nat) (typ : Nat)
    (varMem : Option (List CK_ATTRIBUTE) → Nat → Byte) (h : CHeap) :
    uintArrayToBytes w order x = (x.map (uintToBytes w order)).flatten ∧
    (uintArrayToBytes w order x).length = x.length * (w / 8) ∧
    uintArrayToBytes w order [] = [] ∧
    uintArrayToBytes w order (x ++ y) = uintArrayToBytes w order x ++ uintArrayToBytes w order y ∧
    NewAttribute w order varMem typ (GoValue.uintSlice x) h =
      Except.ok (Attribute.mk typ (some ((x.map (uintToBytes w order)).flatten)), h) := by
  refine ⟨uintArrayToBytes_eq w order x, ?_, ?_, ?_, ?_⟩
  · rw [uintArrayToBytes_eq]
    simp only [List.length_flatten, List.map_map]
    have hc : (List.length ∘ uintToBytes w order) = fun _ => w / 8 := by
      funext z
      simp [uintToBytes_length]
    rw [hc]
    simp
  · rw [uintArrayToBytes_eq]
    simp
  · simp [uintArrayToBytes_eq]
  · simp [NewAttribute, uintArrayToBytes_eq]

/-! ## Properties of the date encoder -/

theorem digitsOf_10_one (n : Nat) (h : n < 10) : digitsOf 10 n = [n] := by
  simp [digitsOf, digitsAux, h]

theorem digitsOf_10_two (n : Nat) (h1 : 10 ≤ n) (h2 : n < 100) :
    digitsOf 10 n = [n / 10, n % 10] := by
  obtain ⟨k, rfl⟩ : ∃ k, n = k + 1 := ⟨n - 1, by omega⟩
  unfold digitsOf
  rw [digitsAux, if_neg (by omega), digitsAux, if_pos (by omega)]

theorem digitsOf_10_four (n : Nat) (h1 : 1000 ≤ n) (h2 : n < 10000) :
    digitsOf 10 n = [n / 1000, n / 100 % 10, n / 10 % 10, n % 10] := by
  obtain ⟨k, rfl⟩ : ∃ k, n = k + 3 := ⟨n - 3, by omega⟩
  unfold digitsOf
  rw [digitsAux, if_neg (by omega), digitsAux, if_neg (by omega), digitsAux,
    if_neg (by omega), digitsAux, if_pos (by omega)]
  have e1 : (k + 3) / 10 / 10 / 10 = (k + 3) / 1000 := by omega
  have e2 : (k + 3) / 10 / 10 = (k + 3) / 100 := by omega
  rw [e1, e2]

theorem Sprintf_4d_four (y : Nat) (h1 : 1000 ≤ y) (h2 : y < 10000) :
    Sprintf_4d (y : Int) =
      [digitByte (y / 1000), digitByte (y / 100 % 10), digitByte (y / 10 % 10),
        digitByte (y % 10)] := by
  have hn : ¬ ((y : Int) < 0) := by omega
  simp [Sprintf_4d, hn, digitsOf_10_four y h1 h2, padLeft]

theorem Sprintf_02d_two (m : Nat) (h2 : m < 100) :
    Sprintf_02d (m : Int) = [digitByte (m / 10), digitByte (m % 10)] := by
  have hn : ¬ ((m : Int) < 0) := by omega
  rcases Nat.lt_or_ge m 10 with h | h
  · have e1 : m / 10 = 0 := by omega
    have e2 : m % 10 = m := by omega
    simp [Sprintf_02d, hn, digitsOf_10_one m h, padLeft, e1, e2, digitByte, byteOf]
  · simp [Sprintf_02d, hn, digitsOf_10_two m h h2, padLeft]

theorem digitByte_val (d : Nat) (h : d < 10) : (digitByte d).val - 48 = d := by
  simp only [digitByte, byteOf]
  omega

/-- C13: on the zero `time.Time` (1 January of year 1) `cDate` returns eight
bytes of which the first three are spaces, not digits: the year is formatted
with `%4d`, which pads with spaces. -/
theorem cDate_year_one_has_spaces :
    cDate ⟨1, 1, 1⟩ = Except.ok [32, 32, 32, 49, 48, 49, 48, 49] ∧
    isAsciiDigit 32 = false ∧
    cDate ⟨999, 3, 7⟩ = Except.ok (asciiBytes " 9990307") := by
  decide

/-- C14: for a date with year 1000 to 9999, month 1 to 12 and day 1 to 31
`cDate` returns the four decimal digits of the year, the two digits of the
month and the two digits of the day, zero-padded; parsing the three groups as
decimal numbers gives back year, month and day; 2024-03-07 encodes to
`20240307`. -/
theorem cDate_digits (y m d : Nat) (hy1 : 1000 ≤ y) (hy2 : y ≤ 9999) (hm1 : 1 ≤ m)
    (hm2 : m ≤ 12) (hd1 : 1 ≤ d) (hd2 : d ≤ 31) :
    ∃ bytes : List Byte, cDate ⟨y, m, d⟩ = Except.ok bytes ∧
      bytes = [digitByte (y / 1000), digitByte (y / 100 % 10), digitByte (y / 10 % 10),
        digitByte (y % 10), digitByte (m / 10), digitByte (m % 10), digitByte (d / 10),
        digitByte (d % 10)] ∧
      bytes.length = 8 ∧ bytes.all isAsciiDigit = true ∧
      parseDecimal (bytes.take 4) = y ∧ parseDecimal ((bytes.drop 4).take 2) = m ∧
      parseDecimal (bytes.drop 6) = d ∧
      cDate ⟨2024, 3, 7⟩ = Except.ok (asciiBytes "20240307") := by
  have hY := Sprintf_4d_four y hy1 (by omega)
  have hM := Sprintf_02d_two m (by omega)
  have hD := Sprintf_02d_two d (by omega)
  refine ⟨_, ?_, rfl, rfl, ?_, ?_, ?_, ?_, by decide⟩
  · simp [cDate, hY, hM, hD, strIndex, bind, Except.bind, pure, Except.pure]
  · simp only [List.all_cons, List.all_nil, Bool.and_true, Bool.and_eq_true, isAsciiDigit,
      digitByte, byteOf, decide_eq_true_eq]
    omega
  · simp only [parseDecimal, valueOf, List.take, List.map, List.foldl]
    rw [digitByte_val _ (by omega), digitByte_val _ (by omega), digitByte_val _ (by omega),
      digitByte_val _ (by omega)]
    omega
  · simp only [parseDecimal, valueOf, List.take, List.drop, List.map, List.foldl]
    rw [digitByte_val _ (by omega), digitByte_val _ (by omega)]
    omega
  · simp only [parseDecimal, valueOf, List.drop, List.map, List.foldl]
    rw [digitByte_val _ (by omega), digitByte_val _ (by omega)]
    omega

/-- C14 at 1999-12-31. -/
theorem cDate_digits_witness :
    ∃ bytes : List Byte, cDate ⟨(1999 : Nat), 12, 31⟩ = Except.ok bytes ∧
      bytes = [digitByte (1999 / 1000), digitByte (1999 / 100 % 10),
        digitByte (1999 / 10 % 10), digitByte (1999 % 10), digitByte (12 / 10),
        digitByte (12 % 10), digitByte (31 / 10), digitByte (31 % 10)] ∧
      bytes.length = 8 ∧ bytes.all isAsciiDigit = true ∧
      parseDecimal (bytes.take 4) = 1999 ∧ parseDecimal ((bytes.drop 4).take 2) = 12 ∧
      parseDecimal (bytes.drop 6) = 31 ∧
      cDate ⟨2024, 3, 7⟩ = Except.ok (asciiBytes "20240307") :=
  cDate_digits 1999 12 31 (by decide) (by decide) (by decide) (by decide) (by decide)
    (by decide)

/-! ## Properties of the boolean encoder -/

/-- C15: a boolean encodes to one byte: `NewAttribute` stores `[1]` for true
and `[0]` for false under every type, and `cBBool` maps true to 1 and false
to 0. -/
theorem NewAttribute_bool (w : Nat) (order : ByteOrder)
    (varMem : Option (List CK_ATTRIBUTE) → Nat → Byte) (typ : Nat) (h : CHeap) :
    NewAttribute w order varMem typ (GoValue.bool true) h =
      Except.ok (Attribute.mk typ (some [1]), h) ∧
    NewAttribute w order varMem typ (GoValue.bool false) h =
      Except.ok (Attribute.mk typ (some [0]), h) ∧
    cBBool true = 1 ∧ cBBool false = 0 :=
  ⟨rfl, rfl, rfl, rfl⟩

/-! ## Properties of the status error -/

/-- C16: `toError` returns the nil error exactly for the status code zero, and
for every other code `c` the error value whose code is `c`. -/
theorem toError_zero_iff (e : Nat) :
    (toError e = none ↔ e = 0) ∧ (e ≠ 0 → toError e = some e) := by
  by_cases h : e = 0
  · simp [toError, CKR_OK, h]
  · simp [toError, CKR_OK, h]

theorem digitsAux_lt (b : Nat) (hb : 0 < b) :
    ∀ (fuel n : Nat) (acc : List Nat), (∀ d ∈ acc, d < b) →
      ∀ d ∈ digitsAux b fuel n acc, d < b := by
  intro fuel
  induction fuel with
  | zero => intro n acc hacc; simpa [digitsAux] using hacc
  | succ fuel ih =>
    intro n acc hacc
    rw [digitsAux]
    split
    · intro d hd
      rcases List.mem_cons.mp hd with rfl | hd
      · assumption
      · exact hacc d hd
    · apply ih
      intro d hd
      rcases List.mem_cons.mp hd with rfl | hd
      · exact Nat.mod_lt _ hb
      · exact hacc d hd

theorem digitsAux_value (b : Nat) (hb1 : 1 < b) :
    ∀ (fuel n : Nat) (acc : List Nat), n < fuel →
      (digitsAux b fuel n acc).foldl (fun v d => v * b + d) 0 =
        acc.foldl (fun v d => v * b + d) n := by
  intro fuel
  induction fuel with
  | zero => intro n acc hn; omega
  | succ fuel ih =>
    intro n acc hn
    rw [digitsAux]
    split
    · simp
    · rename_i hge
      have hdiv : n / b < fuel := by
        have : n / b < n := Nat.div_lt_self (by omega) hb1
        omega
      rw [ih (n / b) (n % b :: acc) hdiv]
      simp only [List.foldl_cons]
      rw [Nat.div_add_mod']

theorem digitsAux_head (b : Nat) (hb1 : 1 < b) :
    ∀ (fuel n : Nat) (acc : List Nat), n < fuel → n ≠ 0 →
      ∃ d, (digitsAux b fuel n acc).head? = some d ∧ d ≠ 0 := by
  intro fuel
  induction fuel with
  | zero => intro n acc hn; omega
  | succ fuel ih =>
    intro n acc hn h0
    rw [digitsAux]
    split
    · exact ⟨n, by simp, h0⟩
    · rename_i hge
      have hlt : n / b < n := Nat.div_lt_self (by omega) hb1
      have hpos : n / b ≠ 0 := by
        have : 0 < n / b := Nat.div_pos (by omega) (by omega)
        omega
      exact ih (n / b) (n % b :: acc) (by omega) hpos

theorem hexChar_mem : ∀ d, d < 16 → hexChar d ∈ "0123456789ABCDEF".toList := by
  decide

theorem hexValue_hexChar : ∀ d, d < 16 → hexValue (hexChar d) = d := by
  decide

theorem hexChar_zero : ∀ d, d < 16 → hexChar d = '0' → d = 0 := by
  decide

/-- C17, as stated, fails: the rendering of the code 1 starts with the package
prefix `pkcs11: `, not with `0x`. -/
theorem Error_render_not_bare :
    Error.Error sampleStrerror 1 = "pkcs11: 0x1: CKR_CANCEL" ∧
    Error.Error sampleStrerror 1 ≠ "0x1: CKR_CANCEL" := by
  decide

/-- C17, amended: for every non-zero status code `c` the rendering is the
prefix `pkcs11: `, then `0x`, then `c` in upper-case hexadecimal without
leading zeros, then `: `, then the message the table holds for `c`; for a code
missing from the table the message is empty; the code 1 renders as
`pkcs11: 0x1: ` followed by its message. -/
theorem Error_render (strerror : Nat → Option String) (c : Nat) (hc : c ≠ 0) :
    Error.Error strerror c = "pkcs11: " ++ "0x" ++ Sprintf_X c ++ ": " ++ (strerror c).getD "" ∧
    (∀ ch ∈ (Sprintf_X c).toList, ch ∈ "0123456789ABCDEF".toList) ∧
    (Sprintf_X c).toList.head? ≠ some '0' ∧
    parseHex (Sprintf_X c) = c ∧
    (strerror c = none → Error.Error strerror c = "pkcs11: 0x" ++ Sprintf_X c ++ ": ") ∧
    Error.Error strerror 1 = "pkcs11: 0x1: " ++ (strerror 1).getD "" := by
  have hlt : ∀ d ∈ digitsOf 16 c, d < 16 :=
    digitsAux_lt 16 (by decide) (c + 1) c [] (by simp)
  refine ⟨rfl, ?_, ?_, ?_, ?_, ?_⟩
  · intro ch hch
    simp only [Sprintf_X, String.toList, List.mem_map] at hch
    obtain ⟨d, hd, rfl⟩ := hch
    exact hexChar_mem d (hlt d hd)
  · obtain ⟨d, hd, hd0⟩ := digitsAux_head 16 (by decide) (c + 1) c [] (by omega) hc
    have hd' : (digitsOf 16 c).head? = some d := hd
    have hmem : d ∈ digitsOf 16 c := List.mem_of_mem_head? hd'
    simp only [Sprintf_X, String.toList, List.head?_map, hd', Option.map_some', ne_eq,
      Option.some.injEq]
    intro hz
    exact hd0 (hexChar_zero d (hlt d hmem) hz)
  · have hmap : (digitsOf 16 c).map (hexValue ∘ hexChar) = digitsOf 16 c := by
      have : ∀ d ∈ digitsOf 16 c, (hexValue ∘ hexChar) d = id d := fun d hd =>
        hexValue_hexChar d (hlt d hd)
      rw [List.map_congr_left this, List.map_id]
    simp only [parseHex, Sprintf_X, String.toList, List.map_map, hmap, valueOf]
    have := digitsAux_value 16 (by decide) (c + 1) c [] (by omega)
    simpa [digitsOf] using this
  · intro hn
    simp [Error.Error, hn]
  · have h1 : "pkcs11: 0x" ++ Sprintf_X 1 ++ ": " = "pkcs11: 0x1: " := by decide
    simp only [Error.Error, h1]

/-- C17, amended, at the code 0x1F with a table that has no entry for it. -/
theorem Error_render_witness :
    Error.Error sampleStrerror 31 =
      "pkcs11: " ++ "0x" ++ Sprintf_X 31 ++ ": " ++ (sampleStrerror 31).getD "" ∧
    (∀ ch ∈ (Sprintf_X 31).toList, ch ∈ "0123456789ABCDEF".toList) ∧
    (Sprintf_X 31).toList.head? ≠ some '0' ∧
    parseHex (Sprintf_X 31) = 31 ∧
    (sampleStrerror 31 = none →
      Error.Error sampleStrerror 31 = "pkcs11: 0x" ++ Sprintf_X 31 ++ ": ") ∧
    Error.Error sampleStrerror 1 = "pkcs11: 0x1: " ++ (sampleStrerror 1).getD "" :=
  Error_render sampleStrerror 31 (by decide)

/-! ## Properties of attribute construction -/

theorem arena.Allocate_error (w : Nat) (a : arena) (h : CHeap) (obj : ByteSlice) (e : Panic)
    (he : arena.Allocate w a h obj = Except.error e) : e = Panic.indexOutOfRange := by
  unfold arena.Allocate at he
  cases hb : obj.bytes with
  | nil => simp [hb] at he; exact he.symm
  | cons b0 rest => simp [hb] at he

theorem cAttributeList.loop_error (w : Nat) :
    ∀ (L : List (Option Attribute)) (i : Nat) (st : arena × List CK_ATTRIBUTE × CHeap)
      (e : Panic), cAttributeList.loop w L i st = Except.error e →
        e = Panic.nilDereference ∨ e = Panic.indexOutOfRange := by
  intro L
  induction L with
  | nil => intro i st e he; simp [cAttributeList.loop] at he
  | cons x rest ih =>
    intro i st e he
    obtain ⟨ar, pa, h⟩ := st
    cases x with
    | none =>
      simp only [cAttributeList.loop, Except.error.injEq] at he
      exact Or.inl he.symm
    | some ai =>
      simp only [cAttributeList.loop] at he
      split at he
      · exact ih _ _ _ he
      · split at he
        · rename_i e1 hall
          simp only [Except.error.injEq] at he
          subst he
          exact Or.inr (arena.Allocate_error w ar h ai.Value e1 hall)
        · exact ih _ _ _ he

theorem attributesToBytes_error (w : Nat) (varMem : Option (List CK_ATTRIBUTE) → Nat → Byte)
    (x : List (Option Attribute)) (h : CHeap) (e : Panic)
    (he : attributesToBytes w varMem x h = Except.error e) :
    e ≠ Panic.unhandledAttributeType := by
  unfold attributesToBytes at he
  split at he
  · rename_i e1 hc
    simp only [Except.error.injEq] at he
    subst he
    unfold cAttributeList at hc
    split at hc
    · simp at hc
    · split at hc
      · rename_i e2 hl
        simp only [Except.error.injEq] at hc
        subst hc
        rcases cAttributeList.loop_error w _ _ _ _ hl with r | r <;> simp [r]
      · simp at hc
  · split at he
    · rename_i e1 hg
      simp only [Except.error.injEq] at he
      subst he
      unfold GoBytes at hg
      split at hg
      · simp only [Except.error.injEq] at hg
        subst hg
        simp
      · simp at hg
    · simp at he

theorem strIndex_of_lt (s : List Byte) (i : Nat) (hi : i < s.length) :
    strIndex s i = Except.ok (s.getD i 0) := by
  simp [strIndex, List.getElem?_eq_getElem hi]

theorem padLeft_length {α : Type} (c : α) (width : Nat) (s : List α) :
    width ≤ (padLeft c width s).length := by
  simp only [padLeft, List.length_append, List.length_replicate]
  omega

theorem Sprintf_4d_length (v : Int) : 4 ≤ (Sprintf_4d v).length :=
  padLeft_length _ _ _

theorem Sprintf_02d_length (v : Int) : 2 ≤ (Sprintf_02d v).length := by
  unfold Sprintf_02d
  split
  · have := padLeft_length (48 : Byte) 1 ((digitsOf 10 v.natAbs).map digitByte)
    simp only [List.length_cons]
    omega
  · exact padLeft_length _ _ _

/-- The date encoder returns eight bytes on every date. -/
theorem cDate_total (t : Time) : ∃ bytes : List Byte, cDate t = Except.ok bytes ∧
    bytes.length = 8 := by
  have hy := Sprintf_4d_length t.year
  have hm := Sprintf_02d_length t.month
  have hd := Sprintf_02d_length t.day
  refine ⟨[(Sprintf_4d t.year).getD 0 0, (Sprintf_4d t.year).getD 1 0,
    (Sprintf_4d t.year).getD 2 0, (Sprintf_4d t.year).getD 3 0,
    (Sprintf_02d t.month).getD 0 0, (Sprintf_02d t.month).getD 1 0,
    (Sprintf_02d t.day).getD 0 0, (Sprintf_02d t.day).getD 1 0], ?_, ?_⟩
  · simp only [cDate, strIndex_of_lt _ 0 (show 0 < (Sprintf_4d t.year).length by omega),
      strIndex_of_lt _ 1 (show 1 < (Sprintf_4d t.year).length by omega),
      strIndex_of_lt _ 2 (show 2 < (Sprintf_4d t.year).length by omega),
      strIndex_of_lt _ 3 (show 3 < (Sprintf_4d t.year).length by omega),
      strIndex_of_lt _ 0 (show 0 < (Sprintf_02d t.month).length by omega),
      strIndex_of_lt _ 1 (show 1 < (Sprintf_02d t.month).length by omega),
      strIndex_of_lt _ 0 (show 0 < (Sprintf_02d t.day).length by omega),
      strIndex_of_lt _ 1 (show 1 < (Sprintf_02d t.day).length by omega),
      bind, Except.bind, pure, Except.pure]
  · rfl

/-- C18: `NewAttribute` stops with the panic `pkcs11: unhandled attribute type`
exactly when its argument is a non-nil value of a shape other than bool, int,
uint, list of uint, list of attributes, string, byte buffer and date; for nil
it returns the type with a nil (empty) value, for a string or a byte buffer
the type with exactly the bytes given. -/
theorem NewAttribute_unhandled (w : Nat) (order : ByteOrder)
    (varMem : Option (List CK_ATTRIBUTE) → Nat → Byte) (typ : Nat) (x : GoValue) (h : CHeap) :
    (NewAttribute w order varMem typ x h = Except.error Panic.unhandledAttributeType ↔
      ∃ n, x = GoValue.other n) ∧
    NewAttribute w order varMem typ GoValue.nil h = Except.ok (Attribute.mk typ none, h) ∧
    ByteSlice.len none = 0 ∧
    (∀ s : List Byte, NewAttribute w order varMem typ (GoValue.string s) h =
      Except.ok (Attribute.mk typ (some s), h)) ∧
    (∀ b : ByteSlice, NewAttribute w order varMem typ (GoValue.bytes b) h =
      Except.ok (Attribute.mk typ b, h)) := by
  refine ⟨?_, rfl, rfl, fun _ => rfl, fun _ => rfl⟩
  cases x with
  | nil => simp [NewAttribute]
  | bool v => cases v <;> simp [NewAttribute]
  | int v => simp [NewAttribute]
  | uint v => simp [NewAttribute]
  | uintSlice v => simp [NewAttribute]
  | attributes v =>
    simp only [NewAttribute, reduceCtorEq, exists_false, iff_false]
    intro he
    split at he
    · rename_i e1 hc
      simp only [Except.error.injEq] at he
      subst he
      exact attributesToBytes_error w varMem v h _ hc rfl
    · simp at he
  | string v => simp [NewAttribute]
  | bytes v => simp [NewAttribute]
  | time v =>
    obtain ⟨bytes, hb, _⟩ := cDate_total v
    simp [NewAttribute, hb]
  | other n => simp [NewAttribute]

/-! ## Parameter shapes of the mechanism list builder -/

/-- The mechanism loop does not return once an entry of the list carries an
unsupported parameter. -/
theorem cMechanismList.loop_unsupported (w : Nat) :
    ∀ (M : List (Option Mechanism)) (i : Nat) (st : arena × List CK_MECHANISM × CHeap),
      (∃ m : Mechanism, some m ∈ M ∧ m.Parameter.isUnsupported = true) →
        ∃ e, cMechanismList.loop w M i st = Except.error e := by
  intro M
  induction M with
  | nil => intro i st hex; obtain ⟨m, hm, _⟩ := hex; simp at hm
  | cons x rest ih =>
    intro i st hex
    obtain ⟨ar, pm, h⟩ := st
    obtain ⟨m, hm, hbad⟩ := hex
    cases x with
    | none => exact ⟨_, rfl⟩
    | some mi =>
      have hrest : ¬ mi.Parameter.isUnsupported = true →
          ∃ m : Mechanism, some m ∈ rest ∧ m.Parameter.isUnsupported = true := by
        intro hmi
        rcases List.mem_cons.mp hm with heq | hin
        · simp only [Option.some.injEq] at heq
          subst heq
          exact absurd hbad hmi
        · exact ⟨m, hin, hbad⟩
      simp only [cMechanismList.loop]
      cases hp : mi.Parameter with
      | nil => exact ih _ _ (hrest (by simp [hp, Parameter.isUnsupported]))
      | native q =>
        have hr := hrest (by simp [hp, Parameter.isUnsupported])
        simp only
        split
        · exact ⟨_, rfl⟩
        · exact ih _ _ hr
      | bytes b =>
        have hr := hrest (by simp [hp, Parameter.isUnsupported])
        simp only
        split
        · exact ih _ _ hr
        · split
          · exact ⟨_, rfl⟩
          · exact ih _ _ hr
      | str v => exact ⟨_, rfl⟩
      | int v => exact ⟨_, rfl⟩
      | oaepValue v => exact ⟨_, rfl⟩
      | other v => exact ⟨_, rfl⟩

/-- The mechanism loop stops with a failed type assertion at an unsupported
parameter when no entry before it panics on its own. -/
theorem cMechanismList.loop_typeAssertion (w : Nat) (m : Mechanism)
    (post : List (Option Mechanism)) (hbad : m.Parameter.isUnsupported = true) :
    ∀ (pre : List Mechanism), (∀ x ∈ pre, x.Parameter.returns) →
      ∀ (i : Nat) (st : arena × List CK_MECHANISM × CHeap),
        cMechanismList.loop w (pre.map some ++ some m :: post) i st =
          Except.error Panic.typeAssertion := by
  intro pre
  induction pre with
  | nil =>
    intro _ i st
    obtain ⟨ar, pm, h⟩ := st
    simp only [List.map_nil, List.nil_append, cMechanismList.loop]
    cases hp : m.Parameter <;> simp_all [Parameter.isUnsupported]
  | cons x rest ih =>
    intro hret i st
    obtain ⟨ar, pm, h⟩ := st
    have hx := hret x (List.mem_cons_self _ _)
    have ih1 := ih (fun y hy => hret y (List.mem_cons_of_mem _ hy))
    simp only [List.map_cons, List.cons_append, cMechanismList.loop]
    cases hp : x.Parameter with
    | nil => exact ih1 _ _
    | bytes b =>
      simp only
      by_cases hz : b.len = 0
      · simp only [hz, if_true]
        exact ih1 _ _
      · simp only [hz, if_false, arena.Allocate_nonEmpty w ar h b hz]
        exact ih1 _ _
    | native q =>
      rw [hp] at hx
      obtain ⟨⟨⟨p, n⟩, h1⟩, hr⟩ := hx ar h
      simp only [hr]
      exact ih1 _ _
    | str v => rfl
    | int v => rfl
    | oaepValue v => rfl
    | other v => rfl

theorem bufferParam_returns (w : Nat) (b : ByteSlice) (hne : b.len ≠ 0) :
    (Parameter.native (bufferParam w b)).returns := by
  intro ar h
  simp [bufferParam, arena.Allocate_nonEmpty w ar h b hne]

theorem stringPrefix_returns : ∀ x ∈ stringPrefix, x.Parameter.returns := by
  intro x hx
  simp only [stringPrefix, List.mem_cons, List.mem_singleton, List.not_mem_nil,
    or_false] at hx
  rcases hx with rfl | rfl
  · exact True.intro
  · exact bufferParam_returns 64 (some [1, 2, 3]) (by decide)

/-- C19, as stated, fails: on a list with an `*OaepParams` entry, or a nil
entry, before a string parameter, `cMechanismList` stops with a nil pointer
dereference at the earlier entry, not with the failed type assertion. -/
theorem cMechanismList_typeAssertion_preempted :
    (Parameter.str "label").isUnsupported = true ∧
    cMechanismList 64 oaepThenString ⟨[]⟩ = Except.error Panic.nilDereference ∧
    cMechanismList 64 oaepThenString ⟨[]⟩ ≠ Except.error Panic.typeAssertion ∧
    cMechanismList 64 nilThenString ⟨[]⟩ = Except.error Panic.nilDereference ∧
    cMechanismList 64 nilThenString ⟨[]⟩ ≠ Except.error Panic.typeAssertion := by
  have h1 : cMechanismList 64 oaepThenString ⟨[]⟩ = Except.error Panic.nilDereference := rfl
  have h2 : cMechanismList 64 nilThenString ⟨[]⟩ = Except.error Panic.nilDereference := rfl
  refine ⟨rfl, h1, ?_, h2, ?_⟩
  · rw [h1]
    simp
  · rw [h2]
    simp

/-- C19, amended: `cMechanismList` never returns records on a list `M` in
which some entry has a parameter that is non-nil and neither a native-encode
value nor a byte buffer (such as a string, an integer or an `OaepParams`
passed by value), so no such entry is encoded as an absent parameter; and on
every list in which no entry before such an entry panics on its own (each is
non-nil and its parameter is absent, a byte buffer, a structured value whose
`toNative` returns, or itself unsupported) the failure is the failed type
assertion to a byte buffer. -/
theorem cMechanismList_unsupported_parameter (w : Nat) (M : List (Option Mechanism))
    (pre : List Mechanism) (post : List (Option Mechanism)) (m : Mechanism) (h : CHeap)
    (hm : some m ∈ M) (hbad : m.Parameter.isUnsupported = true)
    (hpre : ∀ x ∈ pre, x.Parameter.returns) :
    (∃ e, cMechanismList w M h = Except.error e) ∧
    (∀ r, cMechanismList w M h ≠ Except.ok r) ∧
    cMechanismList w (pre.map some ++ some m :: post) h = Except.error Panic.typeAssertion ∧
    (∀ s : String, (Parameter.str s).isUnsupported = true) ∧
    (∀ v : Int, (Parameter.int v).isUnsupported = true) ∧
    (∀ p : OaepParams, (Parameter.oaepValue p).isUnsupported = true) := by
  have hlen : ¬ M.length = 0 := by
    intro h0
    rw [List.length_eq_zero.mp h0] at hm
    simp at hm
  have herr : ∃ e, cMechanismList w M h = Except.error e := by
    obtain ⟨e, he⟩ := cMechanismList.loop_unsupported w M 0
      ([], List.replicate M.length CK_MECHANISM.zero, h) ⟨m, hm, hbad⟩
    exact ⟨e, by simp [cMechanismList, hlen, he]⟩
  refine ⟨herr, ?_, ?_, fun _ => rfl, fun _ => rfl, fun _ => rfl⟩
  · intro r hr
    obtain ⟨e, he⟩ := herr
    rw [he] at hr
    cases hr
  · have hl : ¬ (pre.map some ++ some m :: post).length = 0 := by simp
    have := cMechanismList.loop_typeAssertion w m post hbad pre hpre 0
      ([], List.replicate (pre.map some ++ some m :: post).length CK_MECHANISM.zero, h)
    simp only [cMechanismList, hl, if_false, this]

/-- C19, amended, at a list with an `*OaepParams` before a string (no records,
some failure) and at a list with a raw buffer and a returning structured
parameter before a string (the failed type assertion). -/
theorem cMechanismList_unsupported_parameter_witness :
    (∃ e, cMechanismList 64 oaepThenString ⟨[]⟩ = Except.error e) ∧
    (∀ r, cMechanismList 64 oaepThenString ⟨[]⟩ ≠ Except.ok r) ∧
    cMechanismList 64 stringMechanisms ⟨[]⟩ = Except.error Panic.typeAssertion ∧
    (∀ s : String, (Parameter.str s).isUnsupported = true) ∧
    (∀ v : Int, (Parameter.int v).isUnsupported = true) ∧
    (∀ p : OaepParams, (Parameter.oaepValue p).isUnsupported = true) :=
  cMechanismList_unsupported_parameter 64 oaepThenString stringPrefix [some ⟨3, Parameter.nil⟩]
    ⟨2, Parameter.str "label"⟩ ⟨[]⟩ (List.mem_cons_of_mem _ (List.mem_cons_self _ _)) rfl
    stringPrefix_returns

end Pkcs11
